import Mathlib

/-!
Verification development for `merge.py`, a media-library normalization and
cleanup tool.  The Python source is shallowly embedded: pure string
processing is modelled on `List Char` (ASCII semantics for the character
classes `\s`, `\d`, `\w` of Python's `re` module), the filesystem is
modelled by a finite tree `FSTree`, and interactive input is modelled by a
cursor into an infinite stream of lines.
-/

namespace MediaMerge

set_option linter.unnecessarySeqFocus false

/-! ### Character classes (ASCII model of Python `re` classes) -/

/-- ASCII model of Python's `\s` class for `str` patterns:
space, tab, newline, carriage return, vertical tab, form feed. -/
def pyIsSpace (c : Char) : Bool :=
  c = ' ' || c = '\t' || c = '\n' || c = '\r' || c = '\x0b' || c = '\x0c'

/-- ASCII model of Python's `\w` class: letters, digits and underscore. -/
def isWordChar (c : Char) : Bool :=
  c.isAlpha || c.isDigit || c = '_'

/-! ### The cleaning pipeline of `normalize_name` (merge.py lines 76-78) -/

/-- Scan for the first `']'` reachable from an opening `'['` with no
intervening newline, returning the remainder after it.  This mirrors the
lazy match `\[.*?\]` of `re.sub` (where `.` does not match `'\n'`). -/
def findClose : List Char → Option (List Char)
  | [] => none
  | c :: rest =>
    if c = ']' then some rest
    else if c = '\n' then none
    else findClose rest

/-- One-pass scanner implementing `re.sub(r'\[.*?\]', '', name)`.  The state
`none` means "outside a bracket"; `some acc` means "inside a bracket opened
earlier", with `acc` the reversed characters seen since the `'['`.  On a
`']'` the pending segment is dropped; on a `'\n'` (which `.` cannot match)
or at the end of input the match fails and the pending text is restored
verbatim.  Restoring verbatim is sound because a failed bracket segment
contains no `']'` before the newline, so any `'['` inside it fails as well;
`removeBrackets_bracket` below recovers the left-to-right rescan semantics
of the regex engine. -/
def rbGo : Option (List Char) → List Char → List Char
  | none, [] => []
  | some acc, [] => '[' :: acc.reverse
  | none, c :: rest => if c = '[' then rbGo (some []) rest else c :: rbGo none rest
  | some acc, c :: rest =>
    if c = ']' then rbGo none rest
    else if c = '\n' then '[' :: acc.reverse ++ '\n' :: rbGo none rest
    else rbGo (some (c :: acc)) rest

/-- Model of `re.sub(r'\[.*?\]', '', name)`: drop every non-overlapping
lazily-matched bracketed segment, scanning left to right. -/
def removeBrackets (l : List Char) : List Char := rbGo none l

/-- Model of `name.replace('.', ' ')`. -/
def dotsToSpaces (l : List Char) : List Char :=
  l.map (fun c => if c = '.' then ' ' else c)

/-- Model of `re.sub(r'\s+', ' ', s)`: every maximal run of whitespace
becomes a single space. -/
def collapseWs : List Char → List Char
  | [] => []
  | [c] => if pyIsSpace c then [' '] else [c]
  | c :: d :: rest =>
    if pyIsSpace c && pyIsSpace d then collapseWs (d :: rest)
    else (if pyIsSpace c then ' ' else c) :: collapseWs (d :: rest)

/-- Model of Python `str.strip()` (ASCII whitespace). -/
def pyStrip (l : List Char) : List Char :=
  ((l.dropWhile pyIsSpace).reverse.dropWhile pyIsSpace).reverse

/-- The cleaned string `name_clean` of `normalize_name` (lines 76-78):
brackets removed, dots to spaces, whitespace collapsed and stripped. -/
def name_clean (l : List Char) : List Char :=
  pyStrip (collapseWs (dotsToSpaces (removeBrackets l)))

/-! ### CASE 1 matcher: `re.match(r'^(\d{4})\s*\(?\s*(\d{4})\s*\)?$', ...)` -/

/-- Match `\d{4}` at the head of the list, returning the four digits and
the remainder. -/
def matchFourDigits : List Char → Option (List Char × List Char)
  | d1 :: d2 :: d3 :: d4 :: r =>
    if d1.isDigit && d2.isDigit && d3.isDigit && d4.isDigit then
      some ([d1, d2, d3, d4], r)
    else none
  | _ => none

/-- Model of the anchored two-number pattern
`^(\d{4})\s*\(?\s*(\d{4})\s*\)?$` (merge.py line 79).  The quantifiers are
deterministic here: skipping an available `'('` or leaving whitespace
unconsumed can never turn a failure into a success, so greedy matching
coincides with the backtracking engine. -/
def matchTwoNum (l : List Char) : Option (List Char × List Char) :=
  match matchFourDigits l with
  | none => none
  | some (a, rest) =>
    let r1 := rest.dropWhile pyIsSpace
    let r2 := if r1.head? = some '(' then r1.tail else r1
    let r3 := r2.dropWhile pyIsSpace
    match matchFourDigits r3 with
    | none => none
    | some (b, r4) =>
      let r5 := r4.dropWhile pyIsSpace
      if r5 = [] ∨ r5 = [')'] then some (a, b) else none

/-! ### CASE 2 matcher: `re.search(r'^(.*?)\s*\(?\s*\b(19\d{2}|20\d{2})\b\)?', ...)` -/

/-- Consume leading whitespace while tracking the last consumed character
(needed for the `\b` word-boundary test). -/
def dropSpacesTracking (prev : Option Char) : List Char → Option Char × List Char
  | [] => (prev, [])
  | c :: cs => if pyIsSpace c then dropSpacesTracking (some c) cs else (prev, c :: cs)

/-- Match `(19\d{2}|20\d{2})\b` at the head of the list, returning the four
digits.  The trailing `\b` requires the next character (if any) to be a
non-word character. -/
def matchYear : List Char → Option (List Char)
  | c1 :: c2 :: c3 :: c4 :: rest =>
    if ((c1 = '1' && c2 = '9') || (c1 = '2' && c2 = '0')) && c3.isDigit && c4.isDigit
        && (match rest with | [] => true | r :: _ => !isWordChar r) then
      some [c1, c2, c3, c4]
    else none
  | _ => none

/-- The `\b` word-boundary test before a digit: the preceding character
must be absent (start of string) or a non-word character. -/
def boundaryOk : Option Char → Bool
  | none => true
  | some c => !isWordChar c

/-- Try to match `\s*\(?\s*\b(19\d{2}|20\d{2})\b` at the current position,
where `prev` is the character just before the position (`none` at the start
of the string).  As for `matchTwoNum`, the quantifiers are deterministic. -/
def tryTail (prev : Option Char) (s : List Char) : Option (List Char) :=
  let p1s1 := dropSpacesTracking prev s
  let p2s2 := if p1s1.2.head? = some '(' then ((some '(' : Option Char), p1s1.2.tail)
              else p1s1
  let p3s3 := dropSpacesTracking p2s2.1 p2s2.2
  if boundaryOk p3s3.1 then matchYear p3s3.2 else none

/-- Worker of the lazy search `^(.*?)\s*\(?\s*\b(19\d{2}|20\d{2})\b\)?`:
try the tail match at each successive position (shortest prefix first,
as the lazy `(.*?)` does), never letting the prefix cross a newline
(`.` does not match `'\n'`).  Returns `(group 1, group 2)`. -/
def styGo (prev : Option Char) (acc : List Char) (s : List Char) :
    Option (List Char × List Char) :=
  match tryTail prev s with
  | some y => some (acc.reverse, y)
  | none =>
    match s with
    | [] => none
    | c :: cs => if c = '\n' then none else styGo (some c) (c :: acc) cs

/-- Scan positions left to right; `acc` is the reversed prefix so far;
the `(.*?)` prefix can never include a newline. -/
def searchTitleYear (s : List Char) : Option (List Char × List Char) :=
  styGo none [] s

/-- Model of `re.sub(r'[\s(]+$', '', m.group(1).strip())` (line 84): strip
the captured title, then drop any trailing run of whitespace or `'('`. -/
def trimTitle (t : List Char) : List Char :=
  ((pyStrip t).reverse.dropWhile (fun c => pyIsSpace c || c = '(')).reverse

/-- Model of `normalize_name` (merge.py lines 68-89) on character lists. -/
def normalize_name_l (s : List Char) : List Char :=
  let nc := name_clean s
  match matchTwoNum nc with
  | some (a, b) => a ++ ' ' :: '(' :: b ++ [')']
  | none =>
    match searchTitleYear nc with
    | some (t, y) =>
      let title := trimTitle t
      if title = [] then nc else title ++ ' ' :: '(' :: y ++ [')']
    | none => nc

/-- Model of `normalize_name` on strings. -/
def normalize_name (s : String) : String :=
  (normalize_name_l s.toList).asString

/-- Model of `re.sub(r'\s*\(\d{4}\)$', '', norm)` (line 97): remove a
trailing `"(dddd)"` together with the whitespace run before it. -/
def stripYearSuffix (s : List Char) : List Char :=
  match s.reverse with
  | c0 :: d4 :: d3 :: d2 :: d1 :: c5 :: rest =>
    if c0 = ')' && c5 = '(' && d1.isDigit && d2.isDigit && d3.isDigit && d4.isDigit then
      (rest.dropWhile pyIsSpace).reverse
    else s
  | _ => s

/-- Model of `tv_normalize_name` (merge.py lines 91-98) on character lists. -/
def tv_normalize_name_l (s : List Char) : List Char :=
  let norm := normalize_name_l s
  let tv_norm := pyStrip (stripYearSuffix norm)
  if tv_norm = [] then norm else tv_norm

/-- Model of `tv_normalize_name` on strings. -/
def tv_normalize_name (s : String) : String :=
  (tv_normalize_name_l s.toList).asString

/-! ### Filesystem model -/

/-- A finite filesystem tree: a file with a size in bytes, or a directory
with a list of named children (`os.listdir` order = list order; real
directories have pairwise distinct child names). -/
inductive FSTree where
  | file : Nat → FSTree
  | dir : List (String × FSTree) → FSTree
deriving Repr

/-- Whether a tree node is a directory (`os.path.isdir`). -/
def FSTree.isDir : FSTree → Bool
  | .dir _ => true
  | .file _ => false

/-- Whether a tree node is a regular file (`os.path.isfile`). -/
def FSTree.isFile : FSTree → Bool
  | .file _ => true
  | .dir _ => false

/-- Children of a directory node (`os.listdir`); empty for a file. -/
def FSTree.childrenOf : FSTree → List (String × FSTree)
  | .dir cs => cs
  | .file _ => []

/-- First entry with the given name, as the OS path lookup would find it
(`os.path.exists` / `os.path.isdir` on a child path). -/
def lookupTree (cs : List (String × FSTree)) (n : String) : Option FSTree :=
  match cs with
  | [] => none
  | (m, t) :: rest => if m = n then some t else lookupTree rest n

/-- Replace the contents stored under the first entry named `n`. -/
def replaceEntry (cs : List (String × FSTree)) (n : String) (v : FSTree) :
    List (String × FSTree) :=
  match cs with
  | [] => []
  | (m, t) :: rest => if m = n then (m, v) :: rest else (m, t) :: replaceEntry rest n v

/-- Remove the first entry named `n` (deletion of a path). -/
def removeEntry (cs : List (String × FSTree)) (n : String) : List (String × FSTree) :=
  match cs with
  | [] => []
  | (m, t) :: rest => if m = n then rest else (m, t) :: removeEntry rest n

/-- Model of `os.path.join(a, b)` for a relative (slash-free) basename `b`. -/
def pathJoin (a b : String) : String := a ++ "/" ++ b

/-- Model of `get_size` (merge.py lines 31-43): size of a file, or the
recursive sum of the sizes of all files below a directory (`os.walk`). -/
def get_size : FSTree → Nat
  | .file n => n
  | .dir cs => sizeChildren cs
where
  /-- Sum of `get_size` over a child list. -/
  sizeChildren : List (String × FSTree) → Nat
    | [] => 0
    | (_, t) :: rest => get_size t + sizeChildren rest

/-- Characters Python's `shlex.quote` considers safe: the ASCII word
characters together with `@ % + = : , .`, the slash and the dash. -/
def isShlexSafe (c : Char) : Bool :=
  c.isAlpha || c.isDigit || c = '_' || c = '@' || c = '%' || c = '+' || c = '='
    || c = ':' || c = ',' || c = '.' || c = '/' || c = '-'

/-- Model of `shlex.quote`. -/
def shlexQuote (s : String) : String :=
  if s = "" then "''"
  else if s.toList.all isShlexSafe then s
  else "'" ++ (s.replace "'" "'\"'\"'") ++ "'"

/-- Model of `generate_rm_command` (merge.py lines 45-51), taking the path
string and the tree rooted at that path (which `get_size` would stat). -/
def generate_rm_command (path : String) (t : FSTree) : String :=
  let size := get_size t
  if size > 1073741824 then
    "# Skipped deletion of " ++ shlexQuote path ++ " (size: " ++ toString size
      ++ " bytes) as it is over 1GB"
  else
    "rm -rf " ++ shlexQuote path

/-! ### The recursive merger `safe_move` (merge.py lines 53-66)

`safe_move src dst` acts on the subtree at the source path and the optional
subtree at the destination path.  It returns the new destination subtree
together with what remains at the source path (`none` when the source was
moved away or successfully removed by the trailing `os.rmdir`). -/

mutual

/-- Model of `safe_move`: move when the destination is absent, merge
directory pairs recursively, and otherwise skip, leaving the source item in
place. -/
def safe_move (src : FSTree) (dst : Option FSTree) : FSTree × Option FSTree :=
  match dst with
  | none => (src, none)
  | some d =>
    match src, d with
    | FSTree.dir scs, FSTree.dir dcs =>
      let r := mergeChildren scs dcs
      (FSTree.dir r.1, if r.2.isEmpty then none else some (FSTree.dir r.2))
    | s, d => (d, some s)
termination_by sizeOf src

/-- The loop `for item in os.listdir(src): safe_move(...)` followed by the
`os.rmdir(src)` attempt: merge every source child into the destination
child list, returning the updated destination children and the list of
source children that could not be moved (skipped conflicts). -/
def mergeChildren (scs dcs : List (String × FSTree)) :
    List (String × FSTree) × List (String × FSTree) :=
  match scs with
  | [] => (dcs, [])
  | (n, t) :: rest =>
    match lookupTree dcs n with
    | none => mergeChildren rest (dcs ++ [(n, t)])
    | some d =>
      let r := safe_move t (some d)
      let dcs' := replaceEntry dcs n r.1
      let rec0 := mergeChildren rest dcs'
      (rec0.1, match r.2 with
               | none => rec0.2
               | some leftover => (n, leftover) :: rec0.2)
termination_by sizeOf scs

end

/-! ### Cleanup planning (merge.py lines 192-245) -/

/-- The allowed video extension set (merge.py lines 193 and 214). -/
def allowed_ext : List String :=
  [".mkv", ".mp4", ".avi", ".mov", ".m4v", ".wmv", ".iso"]

/-- Extension of a basename, as `os.path.splitext` computes it: everything
from the last dot on, provided some earlier character of the basename is
not a dot (so names made of leading dots have no extension). -/
def extAfterLastDot (b : List Char) : List Char :=
  let r := b.reverse
  match r.dropWhile (fun c => c ≠ '.') with
  | '.' :: r2 =>
    if r2.any (fun c => c ≠ '.') then '.' :: (r.takeWhile (fun c => c ≠ '.')).reverse
    else []
  | _ => []

/-- Model of `os.path.splitext(p)[1]`: the extension of the component after
the last slash. -/
def splitextExt (p : List Char) : List Char :=
  extAfterLastDot ((p.reverse.takeWhile (fun c => c ≠ '/')).reverse)

/-- Lowercased character list of a string (Python `str.lower`, ASCII). -/
def lowerList (s : String) : List Char := s.toList.map Char.toLower

/-- Model of `os.path.splitext(p)[1].lower()`. -/
def extLower (p : String) : String :=
  ((splitextExt p.toList).map Char.toLower).asString

/-- Model of `max(video_files, key=os.path.getsize)`: Python's `max` keeps
the first of several maximal elements, replacing only on strictly greater
keys. -/
def pickMain : List (String × FSTree) → Option (String × FSTree)
  | [] => none
  | v :: rest =>
    some (rest.foldl (fun b y => if get_size y.2 > get_size b.2 then y else b) v)

/-- The `full_paths` list of the cleanup loops: each immediate child paired
with its joined path. -/
def fullPathsOf (dirPath : String) (children : List (String × FSTree)) :
    List (String × FSTree) :=
  children.map (fun it => (pathJoin dirPath it.1, it.2))

/-- The `video_files` list of the cleanup loops: children that are regular
files whose lowercased path extension is in the allowed set. -/
def videoFilesOf (dirPath : String) (children : List (String × FSTree)) :
    List (String × FSTree) :=
  (fullPathsOf dirPath children).filter
    (fun it => it.2.isFile && allowed_ext.contains (extLower it.1))

/-- The body of the movie-mode cleanup loop (merge.py lines 196-210) for a
single top-level folder: `folderPath` is its path and `children` its
`os.listdir` contents.  No video child: delete the folder.  A single child
that is a video: nothing.  Otherwise delete every sibling of the
largest-by-size video file. -/
def movieFolderCommands (folderPath : String) (children : List (String × FSTree)) :
    List String :=
  let fullPaths := fullPathsOf folderPath children
  let video_files := videoFilesOf folderPath children
  if video_files.isEmpty then [generate_rm_command folderPath (FSTree.dir children)]
  else if fullPaths.length == 1 then []
  else
    match pickMain video_files with
    | none => []
    | some mv =>
      (fullPaths.filter (fun it => it.1 != mv.1)).map
        (fun it => generate_rm_command it.1 it.2)

/-- Model of `gather_movie_cleanup_commands` (merge.py lines 192-211): the
per-folder commands, concatenated over the top-level directories. -/
def gather_movie_cleanup_commands (targetDir : String)
    (cs : List (String × FSTree)) : List String :=
  (cs.filter (fun it => it.2.isDir)).flatMap
    (fun it => movieFolderCommands (pathJoin targetDir it.1) it.2.childrenOf)

/-- Model of `re.search(r'season', sub, re.I)` combined with
`re.match(r's\d+', sub, re.I)` (merge.py lines 184 and 223). -/
def listContainsSub (needle : List Char) : List Char → Bool
  | [] => needle.isEmpty
  | c :: cs => needle.isPrefixOf (c :: cs) || listContainsSub needle cs

/-- Whether a name starts with `s`/`S` followed by a digit (`re.match(r's\d+', ., re.I)`). -/
def matchesSNum (s : String) : Bool :=
  match s.toList with
  | c :: d :: _ => (c = 's' || c = 'S') && d.isDigit
  | _ => false

/-- The season-folder detection rule. -/
def isSeasonName (s : String) : Bool :=
  listContainsSub ("season".toList) (lowerList s) || matchesSNum s

/-- Commands for the contents of one recognized season folder (merge.py
lines 225-232): delete files with disallowed extensions (`splitext` on the
item name) and delete any non-file entry. -/
def tvSeasonItemCommands (seasonPath : String) (items : List (String × FSTree)) :
    List String :=
  items.flatMap (fun item =>
    if item.2.isFile then
      if allowed_ext.contains (extLower item.1) then []
      else [generate_rm_command (pathJoin seasonPath item.1) item.2]
    else [generate_rm_command (pathJoin seasonPath item.1) item.2])

/-- The body of the TV-mode cleanup loop for one show folder (merge.py
lines 216-244): clean recognized season folders, or fall back to the
movie-mode single-folder rule when no season folder is recognized. -/
def tvShowCommands (showPath : String) (cs : List (String × FSTree)) : List String :=
  let seasonCmds := cs.flatMap (fun sub =>
    if sub.2.isDir && isSeasonName sub.1 then
      tvSeasonItemCommands (pathJoin showPath sub.1) sub.2.childrenOf
    else [])
  if cs.any (fun sub => sub.2.isDir && isSeasonName sub.1) then seasonCmds
  else
    let fullPaths := fullPathsOf showPath cs
    let video_files := videoFilesOf showPath cs
    if video_files.isEmpty then [generate_rm_command showPath (FSTree.dir cs)]
    else if fullPaths.length > 1 then
      match pickMain video_files with
      | none => []
      | some mv =>
        (fullPaths.filter (fun it => it.1 != mv.1)).map
          (fun it => generate_rm_command it.1 it.2)
    else []

/-- Model of `gather_tv_cleanup_commands` (merge.py lines 213-245). -/
def gather_tv_cleanup_commands (targetDir : String)
    (cs : List (String × FSTree)) : List String :=
  (cs.filter (fun it => it.2.isDir)).flatMap
    (fun it => tvShowCommands (pathJoin targetDir it.1) it.2.childrenOf)

/-- Model of `create_cleanup_script` (merge.py lines 247-256): `none` when
there are no commands (no path returned, nothing written); otherwise the
script path, the exact file contents written by the loop, and the
`os.chmod` mode `0o755` = 493. -/
def create_cleanup_script (targetDir : String) (commands : List String) :
    Option (String × String × Nat) :=
  if commands.isEmpty then none
  else
    some (pathJoin targetDir "cleanup.sh",
          commands.foldl (fun acc cmd => acc ++ (cmd ++ "\n")) "#!/bin/sh\n\n",
          493)

/-! ### Interactive input model

Standard input is an infinite stream of lines with a read cursor; `readLine`
returns the next line and advances the cursor.  A run "reads no interactive
input" exactly when it returns the state unchanged.  Prompt text and echoed
output are not modelled. -/

/-- Pending interactive input. -/
structure RunState where
  /-- The lines the operator would type, in order. -/
  stdin : Nat → String
  /-- Index of the next unread line. -/
  cursor : Nat

/-- Model of Python `input()`. -/
def readLine (st : RunState) : String × RunState :=
  (st.stdin st.cursor, ⟨st.stdin, st.cursor + 1⟩)

/-- Model of `input_prefill` (merge.py lines 14-29): in force mode the
default is returned without reading input; otherwise a line is read (the
readline prefill only affects the terminal display). -/
def input_prefill (force : Bool) (default : String) (st : RunState) :
    String × RunState :=
  if force then (default, st) else readLine st

/-- Python `s.strip()` on strings. -/
def pyStripS (s : String) : String := (pyStrip s.toList).asString

/-- Python `s.lower()` on strings (ASCII). -/
def pyLowerS (s : String) : String := (s.toList.map Char.toLower).asString

/-- Python `s.strip().lower()`. -/
def pyStripLowerS (s : String) : String := pyLowerS (pyStripS s)

/-! ### Renaming and merging (merge.py lines 100-172) -/

/-- Model of `os.rename(folder_path, new_path)` on the parent's child list:
the entry leaves its old slot and reappears under the new name.  Error
cases of `os.rename` (missing source, occupied destination) are not
modelled; in the modelled flows the destination was checked first. -/
def renameEntry (cs : List (String × FSTree)) (old new : String) :
    List (String × FSTree) :=
  match lookupTree cs old with
  | none => cs
  | some t => removeEntry cs old ++ [(new, t)]

/-- Model of `prompt_rename` (merge.py lines 100-114) acting on the target
directory's child list. -/
def prompt_rename (force : Bool) (folder canonical : String)
    (cs : List (String × FSTree)) (st : RunState) :
    List (String × FSTree) × RunState :=
  if force then (renameEntry cs folder canonical, st)
  else
    let a := input_prefill false canonical st
    let new_name := pyStripS a.1
    if pyLowerS new_name = "s" then (cs, a.2)
    else
      let nn := if new_name = "" then canonical else new_name
      (renameEntry cs folder nn, a.2)

/-- The merge body of `prompt_merge` (lines 125-130): move every child of
the source folder into the destination folder with `safe_move`, then
attempt `os.rmdir` on the source (which succeeds exactly when everything
was moved away).  Callers only reach this with two existing directories. -/
def doMerge (cs : List (String × FSTree)) (srcName dstName : String) :
    List (String × FSTree) :=
  match lookupTree cs srcName, lookupTree cs dstName with
  | some (FSTree.dir scs), some (FSTree.dir dcs) =>
    let r := mergeChildren scs dcs
    let cs1 := replaceEntry cs dstName (FSTree.dir r.1)
    if r.2.isEmpty then removeEntry cs1 srcName
    else replaceEntry cs1 srcName (FSTree.dir r.2)
  | _, _ => cs

/-- Model of `prompt_merge` (merge.py lines 116-131): in force mode merge
immediately; otherwise read an answer and skip exactly when its stripped,
lowercased form is the literal `"s"`. -/
def prompt_merge (force : Bool) (srcName dstName : String)
    (cs : List (String × FSTree)) (st : RunState) :
    List (String × FSTree) × RunState :=
  if force then (doMerge cs srcName dstName, st)
  else
    let a := readLine st
    if pyStripLowerS a.1 = "s" then (cs, a.2)
    else (doMerge cs srcName dstName, a.2)

/-- Model of `re.search(r'\(\d{4}\)$', folder)` (merge.py line 148). -/
def endsWithYearParen (s : String) : Bool :=
  match s.toList.reverse with
  | ')' :: d4 :: d3 :: d2 :: d1 :: '(' :: _ =>
    d1.isDigit && d2.isDigit && d3.isDigit && d4.isDigit
  | _ => false

/-- Movie-mode loop of `rename_and_merge` (lines 162-172) over the snapshot
of top-level folder names, threading the evolving child list and input. -/
def ramMovieGo (force : Bool) (folders : List String)
    (cs : List (String × FSTree)) (st : RunState) :
    List (String × FSTree) × RunState :=
  match folders with
  | [] => (cs, st)
  | folder :: rest =>
    let canonical := normalize_name folder
    if folder = canonical then ramMovieGo force rest cs st
    else
      match lookupTree cs canonical with
      | some (FSTree.dir _) =>
        let r := prompt_merge force folder canonical cs st
        ramMovieGo force rest r.1 r.2
      | _ =>
        let r := prompt_rename force folder canonical cs st
        ramMovieGo force rest r.1 r.2

/-- Append a folder to its group (`groups.setdefault(base, []).append(folder)`
on an insertion-ordered dict). -/
def insertGroup (gs : List (String × List String)) (k f : String) :
    List (String × List String) :=
  match gs with
  | [] => [(k, [f])]
  | (k', fs) :: rest =>
    if k' = k then (k', fs ++ [f]) :: rest else (k', fs) :: insertGroup rest k f

/-- Grouping of TV folders by `tv_normalize_name` (lines 137-141). -/
def buildGroups (folders : List String) : List (String × List String) :=
  folders.foldl (fun gs f => insertGroup gs (tv_normalize_name f) f) []

/-- Merge every non-canonical member of a TV group into the canonical
folder (lines 154-158). -/
def ramTvGroupGo (force : Bool) (canonical : String) (group : List String)
    (cs : List (String × FSTree)) (st : RunState) :
    List (String × FSTree) × RunState :=
  match group with
  | [] => (cs, st)
  | folder :: rest =>
    if folder = canonical then ramTvGroupGo force canonical rest cs st
    else
      let r := prompt_merge force folder canonical cs st
      ramTvGroupGo force canonical rest r.1 r.2

/-- TV-mode loop of `rename_and_merge` (lines 142-158): groups with fewer
than two members are left untouched; otherwise the canonical member is the
first with a `"(dddd)"` suffix, else the first member. -/
def ramTvGo (force : Bool) (groups : List (String × List String))
    (cs : List (String × FSTree)) (st : RunState) :
    List (String × FSTree) × RunState :=
  match groups with
  | [] => (cs, st)
  | (_, group) :: rest =>
    if group.length < 2 then ramTvGo force rest cs st
    else
      let canonical := (group.find? endsWithYearParen).getD (group.headD "")
      let r := ramTvGroupGo force canonical group cs st
      ramTvGo force rest r.1 r.2

/-- Model of `rename_and_merge` (merge.py lines 133-172). -/
def rename_and_merge (force : Bool) (mediaType : String)
    (cs : List (String × FSTree)) (st : RunState) :
    List (String × FSTree) × RunState :=
  let folders := (cs.filter (fun it => it.2.isDir)).map (fun it => it.1)
  if mediaType = "tv" then ramTvGo force (buildGroups folders) cs st
  else ramMovieGo force folders cs st

/-- The prompt-free part of `determine_media_type` (merge.py lines 174-185):
keyword match on the lowercased basename, then the season scan over the
grandchild names; `none` when undetermined. -/
def determine_media_type_pure (baseName : String)
    (cs : List (String × FSTree)) : Option String :=
  let b := lowerList baseName
  if listContainsSub ("movie".toList) b || listContainsSub ("movies".toList) b then
    some "movie"
  else if listContainsSub ("tv".toList) b || listContainsSub ("show".toList) b then
    some "tv"
  else if cs.any (fun it => it.2.isDir && it.2.childrenOf.any
      (fun sub => isSeasonName sub.1)) then
    some "tv"
  else none

/-- Model of `determine_media_type` (merge.py lines 174-190): when the
heuristics are inconclusive, force mode defaults to `"movie"` without
reading input, otherwise the operator is asked (answers starting with `y`
mean TV). -/
def determine_media_type (force : Bool) (baseName : String)
    (cs : List (String × FSTree)) (st : RunState) : String × RunState :=
  match determine_media_type_pure baseName cs with
  | some mt => (mt, st)
  | none =>
    if force then ("movie", st)
    else
      let a := readLine st
      (if (pyStripLowerS a.1).startsWith "y" then "tv" else "movie", a.2)

/-- The whole run of `merge.py`'s `__main__` block up to the command list
passed to `create_cleanup_script`: media-type detection, the rename/merge
pass, then cleanup planning.  `targetPath` is the target directory path and
`baseName` its basename (computed in the source by
`os.path.basename(os.path.normpath(os.path.abspath(argv[1])))`, an
OS-level path resolution that is taken as an input here). -/
def runPipeline (force : Bool) (targetPath baseName : String)
    (cs : List (String × FSTree)) (st : RunState) : List String × RunState :=
  let m := determine_media_type force baseName cs st
  let r := rename_and_merge force m.1 cs m.2
  let cmds :=
    if m.1 = "movie" then gather_movie_cleanup_commands targetPath r.1
    else gather_tv_cleanup_commands targetPath r.1
  (cmds, r.2)

/-! ### A data-preservation order on trees

`fsLe a b` says every datum reachable in `a` is still reachable, unchanged,
in `b`: a file keeps its exact size, and every directory entry has an entry
of the same name in `b` whose subtree again dominates it.  `fsLe dst dst'`
is exactly "nothing that existed under `dst` was overwritten or deleted". -/

mutual

/-- Data-preservation order on trees. -/
def fsLe : FSTree → FSTree → Bool
  | FSTree.file n, FSTree.file m => n == m
  | FSTree.dir cs, FSTree.dir cs' => allCovered cs cs'
  | _, _ => false
termination_by a _ => (sizeOf a, 0)

/-- Every entry of the first list is covered by some entry of the second. -/
def allCovered : List (String × FSTree) → List (String × FSTree) → Bool
  | [], _ => true
  | (n, t) :: rest, cs' => anyCover n t cs' && allCovered rest cs'
termination_by cs _ => (sizeOf cs, 0)

/-- Some entry named `n` in the list dominates `t`. -/
def anyCover : String → FSTree → List (String × FSTree) → Bool
  | _, _, [] => false
  | n, t, (m, u) :: rest => (n == m && fsLe t u) || anyCover n t rest
termination_by _ t l => (sizeOf t, 1 + sizeOf l)

end

/-- Characterization of strings on which `collapseWs` is the identity:
whitespace only as isolated interior single spaces, never two in a row and
never at the very end (the head is unconstrained here). -/
def tidyFrom : List Char → Bool
  | [] => true
  | [c] => !(pyIsSpace c)
  | c :: d :: rest =>
    if pyIsSpace c then (c = ' ') && !(pyIsSpace d) && tidyFrom (d :: rest)
    else tidyFrom (d :: rest)

/-- Fully normalized whitespace: additionally no leading whitespace. -/
def tidy : List Char → Bool
  | [] => true
  | c :: cs => !(pyIsSpace c) && tidyFrom (c :: cs)

/-! ### Bracket-pair analysis for the cleaning pipeline -/

/-- No `']'` occurs anywhere after a `'['`.  On strings without newlines
this characterizes the fixed points of `removeBrackets`. -/
def noPair : List Char → Bool
  | [] => true
  | c :: rest => (if c = '[' then !(rest.contains ']') else true) && noPair rest

/-! ### Whitespace shape of the cleaning pipeline -/

/-- Every whitespace character is a single interior-or-final `' '`:
no two adjacent whitespace characters, and any whitespace character is the
space character.  This is the shape `collapseWs` guarantees. -/
def spaced : List Char → Bool
  | [] => true
  | [c] => !(pyIsSpace c) || c = ' '
  | c :: d :: rest =>
    (if pyIsSpace c then (c = ' ') && !(pyIsSpace d) else true) && spaced (d :: rest)

/-! ### Year tokens and scan decompositions (for claim C1) -/

/-- The year alternation `19\d{2}|20\d{2}`: a 4-digit year in [1900, 2099]. -/
def isYearList : List Char → Bool
  | [c1, c2, c3, c4] =>
    ((c1 = '1' && c2 = '9') || (c1 = '2' && c2 = '0')) && c3.isDigit && c4.isDigit
  | _ => false

/-- Whether `\b(19\d{2}|20\d{2})\b` matches at the head position, with
`prev` the character just before it; the end of the string counts as a
right word boundary. -/
def matchYearB (prev : Option Char) (l : List Char) : Bool :=
  match l with
  | c1 :: c2 :: c3 :: c4 :: rest =>
    boundaryOk prev &&
      (((c1 = '1' && c2 = '9') || (c1 = '2' && c2 = '0')) && c3.isDigit && c4.isDigit) &&
      (match rest with | [] => true | r :: _ => !isWordChar r)
  | _ => false

/-- Scan for a word-bounded year token from the given position on. -/
def hasYearTokenGo (prev : Option Char) : List Char → Bool
  | [] => false
  | c :: cs => matchYearB prev (c :: cs) || hasYearTokenGo (some c) cs

/-- A word-bounded `19xx`/`20xx` token occurs somewhere in the string. -/
def hasYearToken (l : List Char) : Bool := hasYearTokenGo none l

/-! ### Theorems -/

/-- Generalized unfolding of the scanner: from inside a bracket, either the
first reachable `']'` closes it (and scanning resumes after it), or the
bracket fails and everything is restored verbatim. -/
theorem rbGo_some (rest : List Char) : ∀ acc : List Char,
    rbGo (some acc) rest =
      match findClose rest with
      | some after => rbGo none after
      | none => '[' :: acc.reverse ++ rbGo none rest := by
  induction rest with
  | nil => intro acc; simp [rbGo, findClose]
  | cons c rest ih =>
    intro acc
    by_cases hc : c = ']'
    · subst hc; simp [rbGo, findClose]
    · by_cases hn : c = '\n'
      · subst hn; simp [rbGo, findClose]
      · have hfc : findClose (c :: rest) = findClose rest := by
          simp [findClose, hc, hn]
        rw [show rbGo (some acc) (c :: rest) = rbGo (some (c :: acc)) rest by
              simp [rbGo, hc, hn]]
        rw [ih (c :: acc), hfc]
        cases hf : findClose rest with
        | some after => simp
        | none =>
          simp only [List.reverse_cons, List.append_assoc]
          by_cases hb : c = '['
          · subst hb
            rw [show rbGo none ('[' :: rest) = rbGo (some []) rest by simp [rbGo]]
            rw [ih [], hf]
            simp
          · rw [show rbGo none (c :: rest) = c :: rbGo none rest by simp [rbGo, hb]]
            simp

theorem removeBrackets_nil : removeBrackets [] = [] := rfl

/-- The regex-engine recursion at an opening bracket: lazily match to the
first reachable `']'` and drop the segment, or keep the `'['` and rescan
from the next character. -/
theorem removeBrackets_bracket (rest : List Char) :
    removeBrackets ('[' :: rest) =
      match findClose rest with
      | some after => removeBrackets after
      | none => '[' :: removeBrackets rest := by
  show rbGo none ('[' :: rest) = _
  rw [show rbGo none ('[' :: rest) = rbGo (some []) rest by simp [rbGo]]
  rw [rbGo_some]
  cases hf : findClose rest <;> simp [removeBrackets]

/-- Any other character is copied through unchanged. -/
theorem removeBrackets_cons (c : Char) (rest : List Char) (hc : c ≠ '[') :
    removeBrackets (c :: rest) = c :: removeBrackets rest := by
  simp [removeBrackets, rbGo, hc]

example : normalize_name "The.Matrix.1999.[x]" = "The Matrix (1999)" := by decide

example : normalize_name "1080 (2020)" = "1080 (2020)" := by decide

example : normalize_name "Blade.Runner.2049.2022.[x]" = "Blade Runner (2049)" := by decide

example : normalize_name "abc1985" = "abc1985" := by decide

example : normalize_name "abc (( 1985" = "abc (1985)" := by decide

example : normalize_name "1985" = "1985" := by decide

example : normalize_name "2019.2020.[tag]" = "2019 (2020)" := by decide

example : normalize_name "a[b.2020.[t]" = "a" := by decide

example : normalize_name "19 2020" = "19 (2020)" := by decide

example : normalize_name "12345 2020" = "12345 (2020)" := by decide

example : normalize_name "abc ( 2020" = "abc (2020)" := by decide

example : normalize_name ".2020.[t]" = "2020" := by decide

example : normalize_name "1234(5678" = "1234 (5678)" := by decide

example : normalize_name "1234  5678 " = "1234 (5678)" := by decide

example : normalize_name "x.y.[t1].[t2].1999" = "x y (1999)" := by decide

example : normalize_name "a_1999 x" = "a_1999 x" := by decide

example : normalize_name "a-1999" = "a- (1999)" := by decide

example : normalize_name "(1999)" = "(1999)" := by decide

example : normalize_name "x (1999) y 2020" = "x (1999)" := by decide

example : normalize_name "1234 )5678" = "1234 )5678" := by decide

example : normalize_name "w[t]1999" = "w1999" := by decide

example : normalize_name "1234 ( 5678 )" = "1234 (5678)" := by decide

example : normalize_name "1234 (5678))" = "1234 (5678))" := by decide

example : normalize_name "abc 20201" = "abc 20201" := by decide

example : tv_normalize_name "Show Name (2019)" = "Show Name" := by decide

example : tv_normalize_name "Show Name" = "Show Name" := by decide

example : normalize_name "[a\nb]" = "[a b]" := by decide

example : tv_normalize_name "[a\nb]" = "[a b]" := by decide

example : tv_normalize_name "[a b]" = "" := by decide

theorem anyCover_of_mem {n : String} {u t : FSTree} {cs' : List (String × FSTree)}
    (hm : (n, u) ∈ cs') (hle : fsLe t u = true) : anyCover n t cs' = true := by
  induction cs' with
  | nil => cases hm
  | cons p rest ih =>
    rcases List.mem_cons.mp hm with h | h
    · cases h; simp [anyCover, hle]
    · cases p with
      | mk m v => simp [anyCover, ih h]

theorem anyCover_elim {n : String} {t : FSTree} {cs' : List (String × FSTree)}
    (h : anyCover n t cs' = true) : ∃ u, (n, u) ∈ cs' ∧ fsLe t u = true := by
  induction cs' with
  | nil => simp [anyCover] at h
  | cons p rest ih =>
    cases p with
    | mk m v =>
      rw [anyCover] at h
      rcases Bool.or_eq_true_iff.mp h with h1 | h2
      · rcases Bool.and_eq_true_iff.mp h1 with ⟨he, hle⟩
        have he' : n = m := by simpa using he
        subst he'
        exact ⟨v, by simp, hle⟩
      · rcases ih h2 with ⟨u, hu, hle⟩
        exact ⟨u, List.mem_cons_of_mem _ hu, hle⟩

theorem allCovered_of {cs cs' : List (String × FSTree)}
    (h : ∀ n t, (n, t) ∈ cs → anyCover n t cs' = true) : allCovered cs cs' = true := by
  induction cs with
  | nil => simp [allCovered]
  | cons p rest ih =>
    cases p with
    | mk n t =>
      rw [allCovered]
      refine Bool.and_eq_true_iff.mpr ⟨h n t (by simp), ih ?_⟩
      intro m u hm
      exact h m u (List.mem_cons_of_mem _ hm)

theorem allCovered_mem {cs cs' : List (String × FSTree)} {n : String} {t : FSTree}
    (h : allCovered cs cs' = true) (hm : (n, t) ∈ cs) : anyCover n t cs' = true := by
  induction cs with
  | nil => cases hm
  | cons p rest ih =>
    cases p with
    | mk m u =>
      rw [allCovered] at h
      rcases Bool.and_eq_true_iff.mp h with ⟨h1, h2⟩
      rcases List.mem_cons.mp hm with hh | hh
      · cases hh; exact h1
      · exact ih h2 hh

theorem sizeOf_snd_lt_of_mem {p : String × FSTree} {cs : List (String × FSTree)}
    (h : p ∈ cs) : sizeOf p.2 < 1 + sizeOf cs := by
  have h1 : sizeOf p < sizeOf cs := List.sizeOf_lt_of_mem h
  have h2 : sizeOf p.2 < sizeOf p := by
    cases p with
    | mk a b =>
      simp [Prod.mk.sizeOf_spec]
  omega

/-- The preservation order is reflexive. -/
theorem fsLe_refl : (t : FSTree) → fsLe t t = true
  | FSTree.file n => by simp [fsLe]
  | FSTree.dir cs => by
    rw [fsLe]
    exact allCovered_of (fun n t ht => anyCover_of_mem ht (fsLe_refl t))
termination_by t => sizeOf t
decreasing_by
  have := sizeOf_snd_lt_of_mem ht
  simp at this ⊢
  omega

/-- The preservation order is transitive. -/
theorem fsLe_trans : (a b c : FSTree) → fsLe a b = true → fsLe b c = true →
    fsLe a c = true
  | FSTree.file n, b, c, h1, h2 => by
    cases b with
    | file m =>
      cases c with
      | file k =>
        simp [fsLe] at h1 h2 ⊢
        omega
      | dir cs => simp [fsLe] at h2
    | dir cs => simp [fsLe] at h1
  | FSTree.dir as, b, c, h1, h2 => by
    cases b with
    | file m => simp [fsLe] at h1
    | dir bs =>
      cases c with
      | file k => simp [fsLe] at h2
      | dir cs =>
        rw [fsLe] at h1 h2 ⊢
        refine allCovered_of (fun n t ht => ?_)
        rcases anyCover_elim (allCovered_mem h1 ht) with ⟨u, hu, htu⟩
        rcases anyCover_elim (allCovered_mem h2 hu) with ⟨v, hv, huv⟩
        exact anyCover_of_mem hv (fsLe_trans t u v htu huv)
termination_by a _ _ _ _ => sizeOf a
decreasing_by
  have := sizeOf_snd_lt_of_mem ht
  simp at this ⊢
  omega

/-- Entries survive `replaceEntry`: an entry is either present unchanged in
the result, or it is the first entry with the replaced name (the one
`lookupTree` returns) and the new value sits there instead. -/
theorem replaceEntry_cases {cs : List (String × FSTree)} {n m : String}
    {t v : FSTree} (hm : (n, t) ∈ cs) :
    (n, t) ∈ replaceEntry cs m v ∨
      (n = m ∧ lookupTree cs m = some t ∧ (m, v) ∈ replaceEntry cs m v) := by
  induction cs with
  | nil => cases hm
  | cons p rest ih =>
    cases p with
    | mk k u =>
      by_cases hk : k = m
      · subst hk
        rcases List.mem_cons.mp hm with hh | hh
        · cases hh
          right
          exact ⟨rfl, by simp [lookupTree], by simp [replaceEntry]⟩
        · left
          simp [replaceEntry, List.mem_cons_of_mem, hh]
      · rcases List.mem_cons.mp hm with hh | hh
        · cases hh
          left
          simp [replaceEntry, hk]
        · rcases ih hh with h | ⟨h1, h2, h3⟩
          · left
            simp [replaceEntry, hk, h]
          · right
            exact ⟨h1, by simp [lookupTree, hk, h2], by simp [replaceEntry, hk, h3]⟩

/-! ### C4: the merger never overwrites or deletes destination data -/

mutual

/-- Everything under the destination is preserved by `safe_move`. -/
theorem safe_move_le : (src dst : FSTree) →
    fsLe dst (safe_move src (some dst)).1 = true
  | FSTree.file n, dst => by
    cases dst with
    | file m => simp [safe_move]; exact fsLe_refl _
    | dir ds => simp [safe_move]; exact fsLe_refl _
  | FSTree.dir scs, dst => by
    cases dst with
    | file m => simp [safe_move]; exact fsLe_refl _
    | dir dcs =>
      rw [safe_move]
      simp only
      rw [fsLe]
      exact allCovered_of (fun n t ht => mergeChildren_le scs dcs n t ht)
termination_by src _ => sizeOf src

/-- Every destination entry is still covered after merging a list of source
children into it. -/
theorem mergeChildren_le : (scs dcs : List (String × FSTree)) →
    ∀ n t, (n, t) ∈ dcs → anyCover n t (mergeChildren scs dcs).1 = true
  | [], dcs => by
    intro n t ht
    rw [mergeChildren]
    exact anyCover_of_mem ht (fsLe_refl t)
  | (m, s) :: rest, dcs => by
    intro n t ht
    rw [mergeChildren]
    cases hl : lookupTree dcs m with
    | none =>
      simp only
      exact mergeChildren_le rest (dcs ++ [(m, s)]) n t (by simp [ht])
    | some d =>
      simp only
      rcases @replaceEntry_cases _ _ m _ ((safe_move s (some d)).1) ht with
        h | ⟨h1, h2, h3⟩
      · exact mergeChildren_le rest _ n t h
      · subst h1
        rw [hl] at h2
        obtain rfl : t = d := by
          injection h2 with h2
          exact h2.symm
        have hdv : fsLe t (safe_move s (some t)).1 = true := safe_move_le s t
        have hc := mergeChildren_le rest (replaceEntry dcs n (safe_move s (some t)).1)
          n (safe_move s (some t)).1 h3
        rcases anyCover_elim hc with ⟨w, hw, hvw⟩
        exact anyCover_of_mem hw (fsLe_trans t _ w hdv hvw)
termination_by scs _ => sizeOf scs
decreasing_by
  all_goals simp
  all_goals omega

end

/-! ### Claim C4 -/

/-- C4: the recursive merger never overwrites or deletes existing data at
the destination (everything reachable under `dst` beforehand is reachable
unchanged afterwards), and when the destination exists and the pair is not
two directories the source item is skipped and left in place. -/
theorem safe_move_never_overwrites (src dst : FSTree) :
    fsLe dst (safe_move src (some dst)).1 = true ∧
      (¬ (src.isDir = true ∧ dst.isDir = true) →
        safe_move src (some dst) = (dst, some src)) := by
  constructor
  · exact safe_move_le src dst
  · intro h
    cases src with
    | file n =>
      cases dst with
      | file m => simp [safe_move]
      | dir ds => simp [safe_move]
    | dir scs =>
      cases dst with
      | file m => simp [safe_move]
      | dir dcs => exact absurd ⟨rfl, rfl⟩ h

theorem safe_move_never_overwrites_witness :
    safe_move (FSTree.file 1) (some (FSTree.file 2)) =
      (FSTree.file 2, some (FSTree.file 1)) :=
  (safe_move_never_overwrites (FSTree.file 1) (FSTree.file 2)).2
    (by simp [FSTree.isDir])

/-! ### Claim C5 -/

/-- C5: merging a directory `A` containing `x/1.txt` into a directory `B`
containing `x/2.txt` leaves `B` containing both `x/1.txt` and `x/2.txt`,
and `A` is gone from the parent afterwards. -/
theorem merge_example_both_kept (s1 s2 : Nat) (st : RunState) :
    prompt_merge true "A" "B"
      [("A", FSTree.dir [("x", FSTree.dir [("1.txt", FSTree.file s1)])]),
       ("B", FSTree.dir [("x", FSTree.dir [("2.txt", FSTree.file s2)])])] st =
      ([("B", FSTree.dir [("x", FSTree.dir
          [("2.txt", FSTree.file s2), ("1.txt", FSTree.file s1)])])], st) := by
  simp [prompt_merge, doMerge, lookupTree, mergeChildren, safe_move,
    replaceEntry, removeEntry]

/-! ### Claim C3 -/

/-- C3 (amended): `generate_rm_command` returns the commented skip line
exactly when the cumulative size is strictly greater than 1073741824 bytes,
and an active shell-quoted `rm -rf` when the size is at most 1073741824
bytes (so a target of exactly 1 GiB is still actively deleted). -/
theorem generate_rm_threshold (path : String) (t : FSTree) :
    (1073741824 < get_size t →
      generate_rm_command path t =
        "# Skipped deletion of " ++ shlexQuote path ++ " (size: " ++
          toString (get_size t) ++ " bytes) as it is over 1GB") ∧
    (get_size t ≤ 1073741824 →
      generate_rm_command path t = "rm -rf " ++ shlexQuote path) := by
  constructor
  · intro h
    simp [generate_rm_command, h]
  · intro h
    simp [generate_rm_command, Nat.not_lt.mpr h]

theorem generate_rm_threshold_witness :
    generate_rm_command "big" (FSTree.file 1073741825) =
      "# Skipped deletion of " ++ shlexQuote "big" ++ " (size: " ++
        toString (get_size (FSTree.file 1073741825)) ++ " bytes) as it is over 1GB" ∧
    generate_rm_command "a" (FSTree.file 7) = "rm -rf " ++ shlexQuote "a" :=
  ⟨(generate_rm_threshold "big" (FSTree.file 1073741825)).1 (by simp [get_size]),
   (generate_rm_threshold "a" (FSTree.file 7)).2 (by simp [get_size])⟩

/-- C3 counterexample: at a cumulative size of exactly 1073741824 bytes
(1 GiB) the code emits an active `rm -rf`, not a commented skip line, so
the threshold is strictly "greater than", not "at least". -/
theorem generate_rm_at_exact_gib :
    generate_rm_command "a" (FSTree.file 1073741824) = "rm -rf a" ∧
      generate_rm_command "a" (FSTree.file 1073741824) ≠
        "# Skipped deletion of a (size: 1073741824 bytes) as it is over 1GB" := by
  constructor
  · simp [generate_rm_command, get_size, shlexQuote, isShlexSafe]
  · simp [generate_rm_command, get_size, shlexQuote, isShlexSafe]

/-! ### Claim C9 -/

theorem foldl_append_eq_join (l : List String) : ∀ a : String,
    l.foldl (fun acc c => acc ++ (c ++ "\n")) a =
      a ++ String.join (l.map (fun c => c ++ "\n")) := by
  induction l with
  | nil =>
    intro a
    apply String.ext
    simp
  | cons c rest ih =>
    intro a
    rw [List.foldl_cons, ih]
    apply String.ext
    simp

/-- C9: `create_cleanup_script` returns no path and writes nothing for an
empty command list; for a non-empty list it writes `cleanup.sh` in the
target directory containing the shebang header and one command per line,
with mode `0o755`, and returns that path. -/
theorem create_cleanup_script_spec (d : String) (cmds : List String) :
    (cmds = [] → create_cleanup_script d cmds = none) ∧
    (cmds ≠ [] →
      create_cleanup_script d cmds =
        some (pathJoin d "cleanup.sh",
              "#!/bin/sh\n\n" ++ String.join (cmds.map (fun c => c ++ "\n")),
              493)) := by
  constructor
  · intro h
    subst h
    simp [create_cleanup_script]
  · intro h
    rw [create_cleanup_script, if_neg (by simpa using h)]
    rw [foldl_append_eq_join]

theorem create_cleanup_script_witness :
    create_cleanup_script "/t" ([] : List String) = none ∧
    create_cleanup_script "/t" ["rm -rf x"] =
      some (pathJoin "/t" "cleanup.sh",
            "#!/bin/sh\n\n" ++ String.join (["rm -rf x"].map (fun c => c ++ "\n")),
            493) :=
  ⟨(create_cleanup_script_spec "/t" []).1 rfl,
   (create_cleanup_script_spec "/t" ["rm -rf x"]).2 (by simp)⟩

/-! ### Claim C10 -/

/-- C10: at the interactive merge prompt, the merge is skipped exactly when
the stripped, lowercased answer is the literal `"s"`; every other answer
(including `"n"` or `"no"`) lets the merge proceed. -/
theorem prompt_merge_only_s_skips (srcName dstName : String)
    (cs : List (String × FSTree)) (f : Nat → String) (k : Nat) :
    (pyStripLowerS (f k) = "s" →
      prompt_merge false srcName dstName cs ⟨f, k⟩ = (cs, ⟨f, k + 1⟩)) ∧
    (pyStripLowerS (f k) ≠ "s" →
      prompt_merge false srcName dstName cs ⟨f, k⟩ =
        (doMerge cs srcName dstName, ⟨f, k + 1⟩)) := by
  constructor
  · intro h
    simp [prompt_merge, readLine, h]
  · intro h
    simp [prompt_merge, readLine, h]

theorem prompt_merge_only_s_skips_witness :
    prompt_merge false "a" "b" [] ⟨fun _ => "no", 0⟩ =
      (doMerge [] "a" "b", ⟨fun _ => "no", 1⟩) ∧
    prompt_merge false "a" "b" [] ⟨fun _ => " S ", 0⟩ =
      (([] : List (String × FSTree)), ⟨fun _ => " S ", 1⟩) :=
  ⟨(prompt_merge_only_s_skips "a" "b" [] (fun _ => "no") 0).2 (by decide),
   (prompt_merge_only_s_skips "a" "b" [] (fun _ => " S ") 0).1 (by decide)⟩

/-! ### Claim C2 -/

theorem pickFold_mem (l : List (String × FSTree)) : ∀ b : String × FSTree,
    l.foldl (fun b y => if get_size y.2 > get_size b.2 then y else b) b ∈ b :: l := by
  induction l with
  | nil => intro b; simp
  | cons y l ih =>
    intro b
    rw [List.foldl_cons]
    rcases List.mem_cons.mp (ih (if get_size y.2 > get_size b.2 then y else b)) with h | h
    · rw [h]
      by_cases hc : get_size y.2 > get_size b.2
      · simp [hc]
      · simp [hc]
    · simp [h]

theorem pickFold_max (l : List (String × FSTree)) : ∀ (b v : String × FSTree),
    v ∈ b :: l →
      get_size v.2 ≤
        get_size (l.foldl (fun b y => if get_size y.2 > get_size b.2 then y else b) b).2 := by
  induction l with
  | nil =>
    intro b v hv
    rcases List.mem_cons.mp hv with h | h
    · subst h; simp
    · cases h
  | cons y l ih =>
    intro b v hv
    rw [List.foldl_cons]
    have hb : ∀ w : String × FSTree, w = b ∨ w = y →
        get_size w.2 ≤ get_size (if get_size y.2 > get_size b.2 then y else b).2 := by
      intro w hw
      by_cases hc : get_size y.2 > get_size b.2
      · rcases hw with h | h
        · rw [h]; simp [hc]; omega
        · rw [h]; simp [hc]
      · rcases hw with h | h
        · rw [h]; simp [hc]
        · rw [h]; simp [hc]; omega
    rcases List.mem_cons.mp hv with h | h
    · calc get_size v.2 ≤ get_size (if get_size y.2 > get_size b.2 then y else b).2 :=
            hb v (Or.inl h)
        _ ≤ _ := ih _ _ (List.mem_cons_self _ _)
    · rcases List.mem_cons.mp h with h2 | h2
      · calc get_size v.2 ≤ get_size (if get_size y.2 > get_size b.2 then y else b).2 :=
              hb v (Or.inr h2)
          _ ≤ _ := ih _ _ (List.mem_cons_self _ _)
      · exact ih _ _ (List.mem_cons_of_mem _ h2)

theorem pickMain_eq_some {vs : List (String × FSTree)} (h : vs ≠ []) :
    ∃ mv, pickMain vs = some mv ∧ mv ∈ vs ∧
      ∀ v ∈ vs, get_size v.2 ≤ get_size mv.2 := by
  cases vs with
  | nil => exact absurd rfl h
  | cons b l =>
    refine ⟨_, rfl, pickFold_mem l b, ?_⟩
    intro v hv
    exact pickFold_max l b v hv

/-- C2: in movie mode, a top-level folder with no immediate video-file
child is deleted whole; a folder whose single item is a video gets no
command; otherwise the largest-by-size video file (`pickMain`, Python's
`max`) is kept and every other immediate child gets a deletion command. -/
theorem movie_cleanup_spec (folderPath : String)
    (children : List (String × FSTree)) :
    (videoFilesOf folderPath children = [] →
      movieFolderCommands folderPath children =
        [generate_rm_command folderPath (FSTree.dir children)]) ∧
    (videoFilesOf folderPath children ≠ [] → children.length = 1 →
      movieFolderCommands folderPath children = []) ∧
    (videoFilesOf folderPath children ≠ [] → 2 ≤ children.length →
      ∃ mv, pickMain (videoFilesOf folderPath children) = some mv ∧
        mv ∈ videoFilesOf folderPath children ∧
        (∀ v ∈ videoFilesOf folderPath children, get_size v.2 ≤ get_size mv.2) ∧
        movieFolderCommands folderPath children =
          ((fullPathsOf folderPath children).filter (fun it => it.1 != mv.1)).map
            (fun it => generate_rm_command it.1 it.2)) := by
  have hlen : (fullPathsOf folderPath children).length = children.length := by
    simp [fullPathsOf]
  refine ⟨?_, ?_, ?_⟩
  · intro h
    rw [movieFolderCommands]
    simp [h]
  · intro h hone
    rw [movieFolderCommands]
    simp only [List.isEmpty_iff, h, if_false, hlen, hone]
    simp
  · intro h htwo
    rcases pickMain_eq_some h with ⟨mv, hmv, hmem, hmax⟩
    refine ⟨mv, hmv, hmem, hmax, ?_⟩
    rw [movieFolderCommands]
    simp only [List.isEmpty_iff, h, if_false, hlen, hmv]
    have : (children.length == 1) = false := by
      simp
      omega
    simp [this]

theorem movie_cleanup_spec_witness :
    videoFilesOf "/t/f"
        [("a.mkv", FSTree.file 524288000), ("b.mp4", FSTree.file 104857600),
         ("poster.jpg", FSTree.file 5000)] ≠ [] ∧
    (∃ mv, pickMain (videoFilesOf "/t/f"
        [("a.mkv", FSTree.file 524288000), ("b.mp4", FSTree.file 104857600),
         ("poster.jpg", FSTree.file 5000)]) = some mv ∧
      mv ∈ videoFilesOf "/t/f"
        [("a.mkv", FSTree.file 524288000), ("b.mp4", FSTree.file 104857600),
         ("poster.jpg", FSTree.file 5000)] ∧
      (∀ v ∈ videoFilesOf "/t/f"
        [("a.mkv", FSTree.file 524288000), ("b.mp4", FSTree.file 104857600),
         ("poster.jpg", FSTree.file 5000)], get_size v.2 ≤ get_size mv.2) ∧
      movieFolderCommands "/t/f"
        [("a.mkv", FSTree.file 524288000), ("b.mp4", FSTree.file 104857600),
         ("poster.jpg", FSTree.file 5000)] =
        ((fullPathsOf "/t/f"
        [("a.mkv", FSTree.file 524288000), ("b.mp4", FSTree.file 104857600),
         ("poster.jpg", FSTree.file 5000)]).filter (fun it => it.1 != mv.1)).map
          (fun it => generate_rm_command it.1 it.2)) ∧
    movieFolderCommands "/t/f"
        [("a.mkv", FSTree.file 524288000), ("b.mp4", FSTree.file 104857600),
         ("poster.jpg", FSTree.file 5000)] =
      ["rm -rf /t/f/b.mp4", "rm -rf /t/f/poster.jpg"] :=
  have hv : videoFilesOf "/t/f"
      [("a.mkv", FSTree.file 524288000), ("b.mp4", FSTree.file 104857600),
       ("poster.jpg", FSTree.file 5000)] =
      [("/t/f/a.mkv", FSTree.file 524288000), ("/t/f/b.mp4", FSTree.file 104857600)] :=
    rfl
  ⟨by rw [hv]; exact List.cons_ne_nil _ _,
   (movie_cleanup_spec "/t/f"
      [("a.mkv", FSTree.file 524288000), ("b.mp4", FSTree.file 104857600),
       ("poster.jpg", FSTree.file 5000)]).2.2
      (by rw [hv]; exact List.cons_ne_nil _ _) (by decide),
   by decide⟩

/-! ### Claim C8 -/

theorem input_prefill_force (d : String) (st : RunState) :
    input_prefill true d st = (d, st) := rfl

theorem prompt_merge_force (a b : String) (cs : List (String × FSTree))
    (st : RunState) : prompt_merge true a b cs st = (doMerge cs a b, st) := rfl

theorem prompt_rename_force (f c : String) (cs : List (String × FSTree))
    (st : RunState) : prompt_rename true f c cs st = (renameEntry cs f c, st) := rfl

theorem determine_media_type_force (b : String) (cs : List (String × FSTree))
    (st : RunState) :
    determine_media_type true b cs st =
      ((determine_media_type_pure b cs).getD "movie", st) := by
  rw [determine_media_type]
  cases determine_media_type_pure b cs with
  | none => rfl
  | some mt => rfl

theorem ramMovieGo_force (folders : List String) : ∀ (cs : List (String × FSTree))
    (st st' : RunState),
    (ramMovieGo true folders cs st).1 = (ramMovieGo true folders cs st').1 ∧
    (ramMovieGo true folders cs st).2 = st := by
  induction folders with
  | nil => intro cs st st'; exact ⟨rfl, rfl⟩
  | cons f rest ih =>
    intro cs st st'
    by_cases hf : f = normalize_name f
    · have h1 : ∀ t, ramMovieGo true (f :: rest) cs t = ramMovieGo true rest cs t := by
        intro t
        rw [ramMovieGo]
        simp only [← hf]
        simp
      rw [h1 st, h1 st']
      exact ih cs st st'
    · cases hl : lookupTree cs (normalize_name f) with
      | some d =>
        cases d with
        | dir ds =>
          have h1 : ∀ t, ramMovieGo true (f :: rest) cs t =
              ramMovieGo true rest (doMerge cs f (normalize_name f)) t := by
            intro t
            rw [ramMovieGo]
            simp only [if_neg hf, hl, prompt_merge_force]
          rw [h1 st, h1 st']
          exact ih _ st st'
        | file n =>
          have h1 : ∀ t, ramMovieGo true (f :: rest) cs t =
              ramMovieGo true rest (renameEntry cs f (normalize_name f)) t := by
            intro t
            rw [ramMovieGo]
            simp only [if_neg hf, hl, prompt_rename_force]
          rw [h1 st, h1 st']
          exact ih _ st st'
      | none =>
        have h1 : ∀ t, ramMovieGo true (f :: rest) cs t =
            ramMovieGo true rest (renameEntry cs f (normalize_name f)) t := by
          intro t
          rw [ramMovieGo]
          simp only [if_neg hf, hl, prompt_rename_force]
        rw [h1 st, h1 st']
        exact ih _ st st'

theorem ramTvGroupGo_force (group : List String) : ∀ (canonical : String)
    (cs : List (String × FSTree)) (st st' : RunState),
    (ramTvGroupGo true canonical group cs st).1 =
      (ramTvGroupGo true canonical group cs st').1 ∧
    (ramTvGroupGo true canonical group cs st).2 = st := by
  induction group with
  | nil => intro c cs st st'; exact ⟨rfl, rfl⟩
  | cons f rest ih =>
    intro c cs st st'
    by_cases hf : f = c
    · have h1 : ∀ t, ramTvGroupGo true c (f :: rest) cs t =
          ramTvGroupGo true c rest cs t := by
        intro t
        rw [ramTvGroupGo]
        simp only [if_pos hf]
      rw [h1 st, h1 st']
      exact ih c cs st st'
    · have h1 : ∀ t, ramTvGroupGo true c (f :: rest) cs t =
          ramTvGroupGo true c rest (doMerge cs f c) t := by
        intro t
        rw [ramTvGroupGo]
        simp only [if_neg hf, prompt_merge_force]
      rw [h1 st, h1 st']
      exact ih c _ st st'

theorem ramTvGo_force (groups : List (String × List String)) :
    ∀ (cs : List (String × FSTree)) (st st' : RunState),
    (ramTvGo true groups cs st).1 = (ramTvGo true groups cs st').1 ∧
    (ramTvGo true groups cs st).2 = st := by
  induction groups with
  | nil => intro cs st st'; exact ⟨rfl, rfl⟩
  | cons g rest ih =>
    intro cs st st'
    cases g with
    | mk k group =>
      by_cases hg : group.length < 2
      · have h1 : ∀ t, ramTvGo true ((k, group) :: rest) cs t =
            ramTvGo true rest cs t := by
          intro t
          rw [ramTvGo]
          simp only [if_pos hg]
        rw [h1 st, h1 st']
        exact ih cs st st'
      · have h1 : ∀ t, ramTvGo true ((k, group) :: rest) cs t =
            ramTvGo true rest
              (ramTvGroupGo true ((group.find? endsWithYearParen).getD (group.headD ""))
                group cs t).1
              (ramTvGroupGo true ((group.find? endsWithYearParen).getD (group.headD ""))
                group cs t).2 := by
          intro t
          rw [ramTvGo]
          simp only [if_neg hg]
        rw [h1 st, h1 st']
        rcases ramTvGroupGo_force group
            ((group.find? endsWithYearParen).getD (group.headD "")) cs st st' with
          ⟨hcs, hst⟩
        rcases ramTvGroupGo_force group
            ((group.find? endsWithYearParen).getD (group.headD "")) cs st' st with
          ⟨hcs', hst'⟩
        rw [hcs, hst, hst']
        exact ih _ st st'

theorem rename_and_merge_force (mt : String) (cs : List (String × FSTree))
    (st st' : RunState) :
    (rename_and_merge true mt cs st).1 = (rename_and_merge true mt cs st').1 ∧
    (rename_and_merge true mt cs st).2 = st := by
  rw [rename_and_merge, rename_and_merge]
  by_cases hmt : mt = "tv"
  · simp only [if_pos hmt]
    exact ramTvGo_force _ cs st st'
  · simp only [if_neg hmt]
    exact ramMovieGo_force _ cs st st'

/-- C8: a forced run consults the input stream at no point (the run state
comes back unchanged), and two forced runs over the same directory snapshot
produce the same command list and hence the same cleanup script, whatever
the operator would have typed. -/
theorem force_mode_no_input (targetPath baseName : String)
    (cs : List (String × FSTree)) (st st' : RunState) :
    (runPipeline true targetPath baseName cs st).1 =
      (runPipeline true targetPath baseName cs st').1 ∧
    (runPipeline true targetPath baseName cs st).2 = st ∧
    create_cleanup_script targetPath (runPipeline true targetPath baseName cs st).1 =
      create_cleanup_script targetPath
        (runPipeline true targetPath baseName cs st').1 := by
  have hdm : ∀ t, determine_media_type true baseName cs t =
      ((determine_media_type_pure baseName cs).getD "movie", t) :=
    fun t => determine_media_type_force baseName cs t
  have key : (runPipeline true targetPath baseName cs st).1 =
      (runPipeline true targetPath baseName cs st').1 := by
    rw [runPipeline, runPipeline, hdm st, hdm st']
    simp only
    rcases rename_and_merge_force ((determine_media_type_pure baseName cs).getD "movie")
        cs st st' with ⟨hcs, _⟩
    rw [hcs]
  refine ⟨key, ?_, by rw [key]⟩
  rw [runPipeline, hdm st]
  simp only
  exact (rename_and_merge_force ((determine_media_type_pure baseName cs).getD "movie")
    cs st st).2

/-! ### Character facts and cleaning-identity lemmas -/

theorem digit_ne {c : Char} (h : c.isDigit = true) (d : Char)
    (hd : d.isDigit = false) : c ≠ d := by
  intro he
  subst he
  rw [h] at hd
  exact Bool.noConfusion hd

theorem digit_not_space {c : Char} (h : c.isDigit = true) : pyIsSpace c = false := by
  have h1 := digit_ne h ' ' (by decide)
  have h2 := digit_ne h '\t' (by decide)
  have h3 := digit_ne h '\n' (by decide)
  have h4 := digit_ne h '\r' (by decide)
  have h5 := digit_ne h '\x0b' (by decide)
  have h6 := digit_ne h '\x0c' (by decide)
  simp [pyIsSpace, h1, h2, h3, h4, h5, h6]

theorem digit_word {c : Char} (h : c.isDigit = true) : isWordChar c = true := by
  simp [isWordChar, h]

theorem removeBrackets_id {l : List Char} (h : '[' ∉ l) : removeBrackets l = l := by
  induction l with
  | nil => rfl
  | cons c rest ih =>
    have hc : c ≠ '[' := fun he => h (he ▸ List.mem_cons_self c rest)
    rw [removeBrackets_cons c rest hc, ih (fun hm => h (List.mem_cons_of_mem _ hm))]

theorem dotsToSpaces_id {l : List Char} (h : '.' ∉ l) : dotsToSpaces l = l := by
  induction l with
  | nil => rfl
  | cons c rest ih =>
    have hc : c ≠ '.' := fun he => h (he ▸ List.mem_cons_self c rest)
    simp only [dotsToSpaces, List.map_cons, if_neg hc]
    rw [show List.map (fun c => if c = '.' then ' ' else c) rest = dotsToSpaces rest
          from rfl,
        ih (fun hm => h (List.mem_cons_of_mem _ hm))]

theorem collapseWs_id {l : List Char} (h : tidyFrom l = true) : collapseWs l = l := by
  induction l with
  | nil => rfl
  | cons c rest ih =>
    cases rest with
    | nil =>
      rw [tidyFrom] at h
      simp only [Bool.not_eq_true'] at h
      simp [collapseWs, h]
    | cons d rest2 =>
      rw [tidyFrom] at h
      by_cases hc : pyIsSpace c = true
      · rw [if_pos hc] at h
        simp only [Bool.and_eq_true, Bool.not_eq_true', decide_eq_true_eq] at h
        rcases h with ⟨⟨hsp, hd⟩, ht⟩
        rw [collapseWs, hc, hd]
        simp only [Bool.and_false, Bool.false_eq_true, if_false, if_pos hc]
        rw [hsp, ih ht]
        simp
      · rw [if_neg hc] at h
        simp only [Bool.not_eq_true] at hc
        rw [collapseWs, hc]
        simp only [Bool.false_and, Bool.false_eq_true, if_false]
        rw [ih h]

theorem tidyFrom_last {l : List Char} (h : tidyFrom l = true) :
    l.reverse.dropWhile pyIsSpace = l.reverse := by
  induction l with
  | nil => rfl
  | cons c rest ih =>
    cases rest with
    | nil =>
      rw [tidyFrom] at h
      simp only [Bool.not_eq_true'] at h
      simp [List.dropWhile, h]
    | cons d rest2 =>
      rw [tidyFrom] at h
      have ht : tidyFrom (d :: rest2) = true := by
        by_cases hc : pyIsSpace c = true
        · rw [if_pos hc] at h
          simp only [Bool.and_eq_true] at h
          exact h.2
        · rw [if_neg hc] at h
          exact h
      have hne : (d :: rest2).reverse ≠ [] := by simp
      rw [List.reverse_cons]
      rw [List.dropWhile_append]
      rw [ih ht]
      simp [hne]

theorem tidy_strip_id {l : List Char} (h : tidy l = true) : pyStrip l = l := by
  cases l with
  | nil => rfl
  | cons c rest =>
    rw [tidy] at h
    simp only [Bool.and_eq_true, Bool.not_eq_true'] at h
    rcases h with ⟨hc, ht⟩
    rw [pyStrip]
    rw [show (c :: rest).dropWhile pyIsSpace = c :: rest by
          simp [List.dropWhile, hc]]
    rw [tidyFrom_last ht]
    simp

theorem list_len4 {α : Type} {l : List α} (h : l.length = 4) :
    ∃ a b c d, l = [a, b, c, d] := by
  cases l with
  | nil => simp at h
  | cons a t1 =>
    cases t1 with
    | nil => simp at h
    | cons b t2 =>
      cases t2 with
      | nil => simp at h
      | cons c t3 =>
        cases t3 with
        | nil => simp at h
        | cons d t4 =>
          cases t4 with
          | nil => exact ⟨a, b, c, d, rfl⟩
          | cons e t5 => simp at h

theorem tidy_tidyFrom {l : List Char} (h : tidy l = true) : tidyFrom l = true := by
  cases l with
  | nil => rfl
  | cons c cs =>
    rw [tidy] at h
    exact (Bool.and_eq_true_iff.mp h).2

/-- When a name contains no bracket, no dot and already has normalized
whitespace, the cleaning pipeline leaves it unchanged. -/
theorem name_clean_id {l : List Char} (h1 : '[' ∉ l) (h2 : '.' ∉ l)
    (h3 : tidy l = true) : name_clean l = l := by
  rw [name_clean, removeBrackets_id h1, dotsToSpaces_id h2,
    collapseWs_id (tidy_tidyFrom h3), tidy_strip_id h3]

/-! ### Claim C7 -/

/-- C7: a cleaned name consisting of exactly two 4-digit tokens, with the
second optionally parenthesized, normalizes to `"<first> (<second>)"`,
treating the first token as the title. -/
theorem two_token_normalization (a b : List Char)
    (ha4 : a.length = 4) (hb4 : b.length = 4)
    (ha : a.all Char.isDigit = true) (hb : b.all Char.isDigit = true) :
    normalize_name_l (a ++ ' ' :: '(' :: b ++ [')']) =
      a ++ ' ' :: '(' :: b ++ [')'] ∧
    normalize_name_l (a ++ ' ' :: b) = a ++ ' ' :: '(' :: b ++ [')'] := by
  obtain ⟨a1, a2, a3, a4, rfl⟩ := list_len4 ha4
  obtain ⟨b1, b2, b3, b4, rfl⟩ := list_len4 hb4
  simp only [List.all_cons, List.all_nil, Bool.and_eq_true, Bool.and_true] at ha hb
  obtain ⟨ha1, ha2, ha3, ha4d⟩ := ha
  obtain ⟨hb1, hb2, hb3, hb4d⟩ := hb
  have hw1 := digit_not_space ha1
  have hw2 := digit_not_space ha2
  have hw3 := digit_not_space ha3
  have hw4 := digit_not_space ha4d
  have hv1 := digit_not_space hb1
  have hv2 := digit_not_space hb2
  have hv3 := digit_not_space hb3
  have hv4 := digit_not_space hb4d
  have hsp : pyIsSpace ' ' = true := by decide
  have hpo : pyIsSpace '(' = false := by decide
  have hpc : pyIsSpace ')' = false := by decide
  have hfacts : ∀ x : List Char, x = [a1, a2, a3, a4] ++ ' ' :: '(' :: [b1, b2, b3, b4] ++ [')'] ∨
      x = [a1, a2, a3, a4] ++ ' ' :: [b1, b2, b3, b4] →
      ∀ c ∈ x, c.isDigit = true ∨ c = ' ' ∨ c = '(' ∨ c = ')' := by
    rintro x (rfl | rfl) c hc <;>
      (simp at hc;
       rcases hc with rfl | rfl | rfl | rfl | rfl | rfl | rfl | rfl | rfl | rfl | rfl <;>
        simp [ha1, ha2, ha3, ha4d, hb1, hb2, hb3, hb4d])
  constructor
  · have h1 : '[' ∉ [a1, a2, a3, a4] ++ ' ' :: '(' :: [b1, b2, b3, b4] ++ [')'] := by
      intro hm
      rcases hfacts _ (Or.inl rfl) _ hm with h | h | h | h <;> exact absurd h (by decide)
    have h2 : '.' ∉ [a1, a2, a3, a4] ++ ' ' :: '(' :: [b1, b2, b3, b4] ++ [')'] := by
      intro hm
      rcases hfacts _ (Or.inl rfl) _ hm with h | h | h | h <;> exact absurd h (by decide)
    have h3 : tidy ([a1, a2, a3, a4] ++ ' ' :: '(' :: [b1, b2, b3, b4] ++ [')']) = true := by
      simp [tidy, tidyFrom, hw1, hw2, hw3, hw4, hv1, hv2, hv3, hv4, hsp, hpo, hpc]
    have hm1 : matchTwoNum ([a1, a2, a3, a4] ++ ' ' :: '(' :: [b1, b2, b3, b4] ++ [')']) =
        some ([a1, a2, a3, a4], [b1, b2, b3, b4]) := by
      simp [matchTwoNum, matchFourDigits, ha1, ha2, ha3, ha4d, hb1, hb2, hb3, hb4d,
        List.dropWhile, hsp, hpo, hpc, hv1]
    rw [normalize_name_l]
    rw [name_clean_id h1 h2 h3, hm1]
  · have h1 : '[' ∉ [a1, a2, a3, a4] ++ ' ' :: [b1, b2, b3, b4] := by
      intro hm
      rcases hfacts _ (Or.inr rfl) _ hm with h | h | h | h <;> exact absurd h (by decide)
    have h2 : '.' ∉ [a1, a2, a3, a4] ++ ' ' :: [b1, b2, b3, b4] := by
      intro hm
      rcases hfacts _ (Or.inr rfl) _ hm with h | h | h | h <;> exact absurd h (by decide)
    have h3 : tidy ([a1, a2, a3, a4] ++ ' ' :: [b1, b2, b3, b4]) = true := by
      simp [tidy, tidyFrom, hw1, hw2, hw3, hw4, hv1, hv2, hv3, hv4, hsp]
    have hbp : b1 ≠ '(' := digit_ne hb1 '(' (by decide)
    have hm1 : matchTwoNum ([a1, a2, a3, a4] ++ ' ' :: [b1, b2, b3, b4]) =
        some ([a1, a2, a3, a4], [b1, b2, b3, b4]) := by
      simp [matchTwoNum, matchFourDigits, ha1, ha2, ha3, ha4d, hb1, hb2, hb3, hb4d,
        List.dropWhile, hsp, hv1, hbp]
    rw [normalize_name_l]
    rw [name_clean_id h1 h2 h3, hm1]

theorem two_token_normalization_witness :
    normalize_name_l ("1080".toList ++ ' ' :: '(' :: "2020".toList ++ [')']) =
      "1080".toList ++ ' ' :: '(' :: "2020".toList ++ [')'] ∧
    normalize_name "1080 (2020)" = "1080 (2020)" := by
  have h := two_token_normalization "1080".toList "2020".toList
    (by decide) (by decide) (by decide) (by decide)
  refine ⟨h.1, ?_⟩
  show (normalize_name_l "1080 (2020)".toList).asString = "1080 (2020)"
  rw [show "1080 (2020)".toList =
        "1080".toList ++ ' ' :: '(' :: "2020".toList ++ [')'] by decide]
  rw [h.1]
  decide

theorem noPair_tail {c : Char} {l : List Char} (h : noPair (c :: l) = true) :
    noPair l = true := by
  rw [noPair] at h
  exact (Bool.and_eq_true_iff.mp h).2

theorem findClose_mem {l : List Char} : ∀ {a : List Char},
    findClose l = some a → ∀ c ∈ a, c ∈ l := by
  induction l with
  | nil => intro a h; simp [findClose] at h
  | cons x rest ih =>
    intro a h c hc
    rw [findClose] at h
    by_cases hx : x = ']'
    · rw [if_pos hx] at h
      injection h with h
      subst h
      exact List.mem_cons_of_mem _ hc
    · rw [if_neg hx] at h
      by_cases hn : x = '\n'
      · rw [if_pos hn] at h; cases h
      · rw [if_neg hn] at h
        exact List.mem_cons_of_mem _ (ih h c hc)

theorem findClose_len {l : List Char} : ∀ {a : List Char},
    findClose l = some a → a.length < l.length := by
  induction l with
  | nil => intro a h; simp [findClose] at h
  | cons x rest ih =>
    intro a h
    rw [findClose] at h
    by_cases hx : x = ']'
    · rw [if_pos hx] at h
      injection h with h
      subst h
      simp
    · rw [if_neg hx] at h
      by_cases hn : x = '\n'
      · rw [if_pos hn] at h; cases h
      · rw [if_neg hn] at h
        exact Nat.lt_trans (ih h) (by simp)

theorem findClose_none_of_no_close {l : List Char} (h : ']' ∉ l) :
    findClose l = none := by
  induction l with
  | nil => rfl
  | cons x rest ih =>
    have hx : x ≠ ']' := fun he => h (he ▸ List.mem_cons_self x rest)
    rw [findClose, if_neg hx]
    by_cases hn : x = '\n'
    · rw [if_pos hn]
    · rw [if_neg hn]
      exact ih (fun hm => h (List.mem_cons_of_mem _ hm))

theorem no_close_of_findClose_none {l : List Char} (hn : '\n' ∉ l)
    (h : findClose l = none) : ']' ∉ l := by
  induction l with
  | nil => simp
  | cons x rest ih =>
    rw [findClose] at h
    by_cases hx : x = ']'
    · rw [if_pos hx] at h; cases h
    · rw [if_neg hx] at h
      have hxn : x ≠ '\n' := fun he => hn (he ▸ List.mem_cons_self x rest)
      rw [if_neg hxn] at h
      intro hm
      rcases List.mem_cons.mp hm with he | hm2
      · exact hx he.symm
      · exact ih (fun hm3 => hn (List.mem_cons_of_mem _ hm3)) h hm2

theorem mem_removeBrackets : (l : List Char) → ∀ c ∈ removeBrackets l, c ∈ l := by
  intro l
  match l with
  | [] => simp [removeBrackets, rbGo]
  | x :: rest =>
    by_cases hx : x = '['
    · subst hx
      rw [removeBrackets_bracket]
      cases hf : findClose rest with
      | some after =>
        simp only
        intro c hc
        exact List.mem_cons_of_mem _ (findClose_mem hf c (mem_removeBrackets after c hc))
      | none =>
        simp only
        intro c hc
        rcases List.mem_cons.mp hc with rfl | hc2
        · exact List.mem_cons_self _ _
        · exact List.mem_cons_of_mem _ (mem_removeBrackets rest c hc2)
    · rw [removeBrackets_cons _ _ hx]
      intro c hc
      rcases List.mem_cons.mp hc with rfl | hc2
      · exact List.mem_cons_self _ _
      · exact List.mem_cons_of_mem _ (mem_removeBrackets rest c hc2)
termination_by l => l.length
decreasing_by
  all_goals simp
  all_goals (have h9 := findClose_len hf; omega)

theorem removeBrackets_of_noPair : (l : List Char) → noPair l = true →
    removeBrackets l = l := by
  intro l h
  match l with
  | [] => rfl
  | x :: rest =>
    by_cases hx : x = '['
    · subst hx
      rw [noPair, if_pos rfl] at h
      rcases Bool.and_eq_true_iff.mp h with ⟨h1, h2⟩
      have hnc : ']' ∉ rest := by simpa using h1
      rw [removeBrackets_bracket, findClose_none_of_no_close hnc]
      rw [removeBrackets_of_noPair rest h2]
    · rw [removeBrackets_cons _ _ hx, removeBrackets_of_noPair rest (noPair_tail h)]

theorem noPair_removeBrackets : (l : List Char) → '\n' ∉ l →
    noPair (removeBrackets l) = true := by
  intro l hn
  match l with
  | [] => rfl
  | x :: rest =>
    have hnr : '\n' ∉ rest := fun hm => hn (List.mem_cons_of_mem _ hm)
    by_cases hx : x = '['
    · subst hx
      rw [removeBrackets_bracket]
      cases hf : findClose rest with
      | some after =>
        simp only
        exact noPair_removeBrackets after
          (fun hm => hnr (findClose_mem hf _ hm))
      | none =>
        simp only
        have hnc : ']' ∉ rest := no_close_of_findClose_none hnr hf
        rw [noPair, if_pos rfl]
        refine Bool.and_eq_true_iff.mpr ⟨?_, noPair_removeBrackets rest hnr⟩
        have : ']' ∉ removeBrackets rest :=
          fun hm => hnc (mem_removeBrackets rest _ hm)
        simpa using this
    · rw [removeBrackets_cons _ _ hx]
      rw [noPair]
      refine Bool.and_eq_true_iff.mpr ⟨?_, noPair_removeBrackets rest hnr⟩
      by_cases hb : x = '['
      · exact absurd hb hx
      · rw [if_neg hb]
termination_by l => l.length
decreasing_by
  all_goals simp
  all_goals (have h9 := findClose_len hf; omega)

theorem spaced_tail {c : Char} {l : List Char} (h : spaced (c :: l) = true) :
    spaced l = true := by
  cases l with
  | nil => rfl
  | cons d r =>
    rw [spaced] at h
    exact (Bool.and_eq_true_iff.mp h).2

theorem spaced_cons_nonws {c : Char} {l : List Char} (hc : pyIsSpace c = false)
    (h : spaced l = true) : spaced (c :: l) = true := by
  cases l with
  | nil => simp [spaced, hc]
  | cons d r =>
    rw [spaced, if_neg (by simp [hc])]
    simpa using h

theorem spaced_cons_space {d : Char} {r : List Char} (hd : pyIsSpace d = false)
    (h : spaced (d :: r) = true) : spaced (' ' :: d :: r) = true := by
  rw [spaced, if_pos (by decide)]
  simp [hd, h]

theorem collapseWs_head_of_nonws {d : Char} {r : List Char}
    (hd : pyIsSpace d = false) : ∃ t, collapseWs (d :: r) = d :: t := by
  cases r with
  | nil => exact ⟨[], by simp [collapseWs, hd]⟩
  | cons e r2 =>
    refine ⟨collapseWs (e :: r2), ?_⟩
    rw [collapseWs]
    simp [hd]

theorem spaced_collapseWs (l : List Char) : spaced (collapseWs l) = true := by
  induction l with
  | nil => rfl
  | cons c rest ih =>
    cases rest with
    | nil =>
      by_cases hc : pyIsSpace c = true
      · simp [collapseWs, hc, spaced]
      · simp only [Bool.not_eq_true] at hc
        simp [collapseWs, hc, spaced]
    | cons d rest2 =>
      by_cases hc : pyIsSpace c = true
      · by_cases hd : pyIsSpace d = true
        · rw [collapseWs]
          simp only [hc, hd, Bool.and_self, if_true]
          exact ih
        · simp only [Bool.not_eq_true] at hd
          rw [collapseWs]
          simp only [hc, hd, Bool.and_false, Bool.false_eq_true, if_false, if_pos hc]
          rcases @collapseWs_head_of_nonws _ rest2 hd with ⟨t, ht⟩
          rw [ht]
          have ih2 : spaced (d :: t) = true := ht ▸ ih
          exact spaced_cons_space hd ih2
      · simp only [Bool.not_eq_true] at hc
        rw [collapseWs]
        simp only [hc, Bool.false_and, Bool.false_eq_true, if_false]
        exact spaced_cons_nonws hc ih

theorem spaced_dropWhile {l : List Char} {p : Char → Bool}
    (h : spaced l = true) : spaced (l.dropWhile p) = true := by
  induction l with
  | nil => rfl
  | cons c rest ih =>
    rw [List.dropWhile_cons]
    by_cases hp : p c = true
    · rw [if_pos hp]
      exact ih (spaced_tail h)
    · rw [if_neg (by simpa using hp)]
      exact h

theorem spaced_append_left {l1 l2 : List Char}
    (h : spaced (l1 ++ l2) = true) : spaced l1 = true := by
  induction l1 with
  | nil => rfl
  | cons c t ih =>
    cases t with
    | nil =>
      cases l2 with
      | nil => simpa using h
      | cons e r =>
        simp only [List.cons_append, List.nil_append] at h
        rw [spaced] at h
        rcases Bool.and_eq_true_iff.mp h with ⟨h1, _⟩
        rw [spaced]
        by_cases hc : pyIsSpace c = true
        · rw [if_pos hc] at h1
          simp only [Bool.and_eq_true, decide_eq_true_eq] at h1
          simp [h1.1]
        · simp [hc]
    | cons d t2 =>
      simp only [List.cons_append] at h
      rw [spaced] at h
      rcases Bool.and_eq_true_iff.mp h with ⟨h1, h2⟩
      rw [spaced]
      refine Bool.and_eq_true_iff.mpr ⟨h1, ?_⟩
      exact ih (by simpa using h2)

theorem dropWhile_head_false {p : Char → Bool} {l t : List Char} {c : Char}
    (h : l.dropWhile p = c :: t) : p c = false := by
  induction l with
  | nil => simp at h
  | cons x rest ih =>
    rw [List.dropWhile_cons] at h
    by_cases hp : p x = true
    · rw [if_pos hp] at h
      exact ih h
    · rw [if_neg (by simpa using hp)] at h
      injection h with h1 _
      subst h1
      simpa using hp

theorem dropWhile_idem {p : Char → Bool} {l : List Char} :
    (l.dropWhile p).dropWhile p = l.dropWhile p := by
  cases hd : l.dropWhile p with
  | nil => rfl
  | cons c t =>
    rw [List.dropWhile_cons, if_neg (by simp [dropWhile_head_false hd])]

theorem tidyFrom_of_spaced_fix {l : List Char} (hs : spaced l = true)
    (hfix : l.reverse.dropWhile pyIsSpace = l.reverse) : tidyFrom l = true := by
  induction l with
  | nil => rfl
  | cons c t ih =>
    cases t with
    | nil =>
      rw [tidyFrom]
      simp only [List.reverse_cons, List.reverse_nil, List.nil_append] at hfix
      rw [List.dropWhile_cons] at hfix
      by_cases hc : pyIsSpace c = true
      · rw [if_pos hc] at hfix
        simp at hfix
      · simpa using hc
    | cons d t2 =>
      rw [tidyFrom]
      have hrev : (c :: d :: t2).reverse = (d :: t2).reverse ++ [c] := by
        simp
      rw [hrev, List.dropWhile_append] at hfix
      have hne : ((d :: t2).reverse.dropWhile pyIsSpace).isEmpty = false := by
        by_contra hcon
        simp only [Bool.not_eq_false, List.isEmpty_iff] at hcon
        rw [hcon] at hfix
        simp only [List.isEmpty_nil, if_true] at hfix
        have h2 : ([c].dropWhile pyIsSpace).length ≤ 1 := by
          have hsub : List.Sublist (List.dropWhile pyIsSpace [c]) [c] :=
            List.dropWhile_sublist pyIsSpace
          have := List.Sublist.length_le hsub
          simpa using this
        rw [hfix] at h2
        simp only [List.length_append, List.length_reverse, List.length_cons,
          List.length_nil] at h2
        omega
      rw [if_neg (by simpa using hne)] at hfix
      have hfix2 : (d :: t2).reverse.dropWhile pyIsSpace = (d :: t2).reverse :=
        List.append_cancel_right hfix
      have ht : tidyFrom (d :: t2) = true := ih (spaced_tail hs) hfix2
      rw [spaced] at hs
      rcases Bool.and_eq_true_iff.mp hs with ⟨h1, _⟩
      by_cases hc : pyIsSpace c = true
      · rw [if_pos hc]
        rw [if_pos hc] at h1
        simp only [Bool.and_eq_true, decide_eq_true_eq] at h1
        simp [h1.1, h1.2, ht]
      · rw [if_neg hc]
        exact ht

theorem pyStrip_prefix_decomp (l : List Char) :
    l.dropWhile pyIsSpace =
      pyStrip l ++ ((l.dropWhile pyIsSpace).reverse.takeWhile pyIsSpace).reverse := by
  rw [pyStrip]
  rw [← List.reverse_append]
  rw [List.takeWhile_append_dropWhile]
  rw [List.reverse_reverse]

theorem tidy_pyStrip_collapseWs (w : List Char) :
    tidy (pyStrip (collapseWs w)) = true := by
  have hsp : spaced (collapseWs w) = true := spaced_collapseWs w
  have hs0 : spaced ((collapseWs w).dropWhile pyIsSpace) = true :=
    spaced_dropWhile hsp
  obtain ⟨J, hdecomp⟩ : ∃ J, (collapseWs w).dropWhile pyIsSpace =
      pyStrip (collapseWs w) ++ J :=
    ⟨_, pyStrip_prefix_decomp (collapseWs w)⟩
  have hspr : spaced (pyStrip (collapseWs w)) = true :=
    @spaced_append_left _ J (hdecomp ▸ hs0)
  have hfix : (pyStrip (collapseWs w)).reverse.dropWhile pyIsSpace =
      (pyStrip (collapseWs w)).reverse := by
    rw [pyStrip]
    simp only [List.reverse_reverse]
    exact dropWhile_idem
  cases hps : pyStrip (collapseWs w) with
  | nil => rfl
  | cons c t =>
    rw [tidy]
    have hhead : pyIsSpace c = false := by
      have h5 : (collapseWs w).dropWhile pyIsSpace = c :: (t ++ J) := by
        rw [hdecomp, hps, List.cons_append]
      exact dropWhile_head_false h5
    rw [hhead]
    simp only [Bool.not_false, Bool.true_and]
    exact tidyFrom_of_spaced_fix (hps ▸ hspr) (hps ▸ hfix)

/-! ### Membership through the cleaning pipeline -/

theorem mem_collapseWs {c : Char} : ∀ {l : List Char},
    c ∈ collapseWs l → c ∈ l ∨ c = ' ' := by
  intro l
  induction l with
  | nil => intro h; simp [collapseWs] at h
  | cons x rest ih =>
    intro h
    cases rest with
    | nil =>
      by_cases hx : pyIsSpace x = true
      · simp [collapseWs, hx] at h
        exact Or.inr h
      · simp only [Bool.not_eq_true] at hx
        simp [collapseWs, hx] at h
        exact Or.inl (by simp [h])
    | cons d rest2 =>
      rw [collapseWs] at h
      by_cases hx : pyIsSpace x = true
      · by_cases hd : pyIsSpace d = true
        · rw [if_pos (by simp [hx, hd])] at h
          rcases ih h with h2 | h2
          · exact Or.inl (List.mem_cons_of_mem _ h2)
          · exact Or.inr h2
        · rw [if_neg (by simp [hd])] at h
          rcases List.mem_cons.mp h with rfl | h2
          · simp [hx]
          · rcases ih h2 with h3 | h3
            · exact Or.inl (List.mem_cons_of_mem _ h3)
            · exact Or.inr h3
      · simp only [Bool.not_eq_true] at hx
        rw [if_neg (by simp [hx])] at h
        rcases List.mem_cons.mp h with rfl | h2
        · simp [hx]
        · rcases ih h2 with h3 | h3
          · exact Or.inl (List.mem_cons_of_mem _ h3)
          · exact Or.inr h3

theorem mem_dropWhile {c : Char} {p : Char → Bool} : ∀ {l : List Char},
    c ∈ l.dropWhile p → c ∈ l := by
  intro l
  induction l with
  | nil => intro h; simp at h
  | cons x rest ih =>
    intro h
    rw [List.dropWhile_cons] at h
    by_cases hp : p x = true
    · rw [if_pos hp] at h
      exact List.mem_cons_of_mem _ (ih h)
    · rw [if_neg (by simpa using hp)] at h
      exact h

theorem mem_pyStrip {c : Char} {l : List Char} (h : c ∈ pyStrip l) : c ∈ l := by
  rw [pyStrip] at h
  rw [List.mem_reverse] at h
  have h2 := mem_dropWhile h
  rw [List.mem_reverse] at h2
  exact mem_dropWhile h2

theorem not_dot_dotsToSpaces (l : List Char) : '.' ∉ dotsToSpaces l := by
  intro h
  rw [dotsToSpaces] at h
  rcases List.mem_map.mp h with ⟨d, _, hd⟩
  by_cases hdd : d = '.'
  · rw [if_pos hdd] at hd
    exact absurd hd (by decide)
  · rw [if_neg hdd] at hd
    exact hdd (hd ▸ rfl)

theorem name_clean_no_dot (l : List Char) : '.' ∉ name_clean l := by
  intro h
  rw [name_clean] at h
  rcases mem_collapseWs (mem_pyStrip h) with h2 | h2
  · exact not_dot_dotsToSpaces _ h2
  · exact absurd h2 (by decide)

/-! ### noPair is preserved by the rest of the cleaning pipeline -/

theorem mem_of_mem_dots {c : Char} {l : List Char} (hc : c ≠ ' ')
    (h : c ∈ dotsToSpaces l) : c ∈ l := by
  rw [dotsToSpaces] at h
  rcases List.mem_map.mp h with ⟨d, hd, hde⟩
  by_cases hdd : d = '.'
  · rw [if_pos hdd] at hde
    exact absurd hde.symm hc
  · rw [if_neg hdd] at hde
    exact hde ▸ hd

theorem noPair_dotsToSpaces {l : List Char} (h : noPair l = true) :
    noPair (dotsToSpaces l) = true := by
  induction l with
  | nil => rfl
  | cons c rest ih =>
    have htail := ih (noPair_tail h)
    simp only [dotsToSpaces, List.map_cons] at htail ⊢
    rw [noPair]
    refine Bool.and_eq_true_iff.mpr ⟨?_, htail⟩
    by_cases hfc : (if c = '.' then ' ' else c) = '['
    · rw [if_pos hfc]
      have hcb : c = '[' := by
        by_cases hd : c = '.'
        · rw [if_pos hd] at hfc
          exact absurd hfc (by decide)
        · rw [if_neg hd] at hfc
          exact hfc
      rw [noPair, if_pos hcb] at h
      have h1 : ']' ∉ rest := by simpa using (Bool.and_eq_true_iff.mp h).1
      have h2 : ']' ∉ List.map (fun c => if c = '.' then ' ' else c) rest := by
        intro hm
        exact h1 (mem_of_mem_dots (by decide) (by simpa [dotsToSpaces] using hm))
      simpa using h2
    · rw [if_neg hfc]

theorem noPair_collapseWs {l : List Char} (h : noPair l = true) :
    noPair (collapseWs l) = true := by
  induction l with
  | nil => rfl
  | cons c rest ih =>
    have htail := ih (noPair_tail h)
    cases rest with
    | nil =>
      by_cases hc : pyIsSpace c = true
      · simp [collapseWs, hc, noPair]
      · simp only [Bool.not_eq_true] at hc
        simp only [collapseWs, hc, Bool.false_eq_true, if_false]
        rw [noPair]
        refine Bool.and_eq_true_iff.mpr ⟨?_, rfl⟩
        by_cases hb : c = '['
        · rw [if_pos hb]; rfl
        · rw [if_neg hb]
    | cons d rest2 =>
      rw [collapseWs]
      by_cases hcd : (pyIsSpace c && pyIsSpace d) = true
      · rw [if_pos hcd]
        exact htail
      · rw [if_neg hcd]
        rw [noPair]
        refine Bool.and_eq_true_iff.mpr ⟨?_, htail⟩
        by_cases hb : (if pyIsSpace c then ' ' else c) = '['
        · rw [if_pos hb]
          have hcb : c = '[' := by
            by_cases hsp : pyIsSpace c = true
            · rw [if_pos hsp] at hb
              exact absurd hb (by decide)
            · rw [if_neg hsp] at hb
              exact hb
          rw [noPair, if_pos hcb] at h
          have h1 : ']' ∉ d :: rest2 := by simpa using (Bool.and_eq_true_iff.mp h).1
          have h2 : ']' ∉ collapseWs (d :: rest2) := by
            intro hm
            rcases mem_collapseWs hm with h3 | h3
            · exact h1 h3
            · exact absurd h3 (by decide)
          simpa using h2
        · rw [if_neg hb]

theorem noPair_dropWhile {l : List Char} {p : Char → Bool} (h : noPair l = true) :
    noPair (l.dropWhile p) = true := by
  induction l with
  | nil => rfl
  | cons c rest ih =>
    rw [List.dropWhile_cons]
    by_cases hp : p c = true
    · rw [if_pos hp]
      exact ih (noPair_tail h)
    · rw [if_neg (by simpa using hp)]
      exact h

theorem noPair_append_left {l1 l2 : List Char} (h : noPair (l1 ++ l2) = true) :
    noPair l1 = true := by
  induction l1 with
  | nil => rfl
  | cons c t ih =>
    simp only [List.cons_append] at h
    rw [noPair] at h ⊢
    rcases Bool.and_eq_true_iff.mp h with ⟨h1, h2⟩
    refine Bool.and_eq_true_iff.mpr ⟨?_, ih h2⟩
    by_cases hb : c = '['
    · rw [if_pos hb] at h1 ⊢
      have h3 : ']' ∉ t ++ l2 := by simpa using h1
      have h4 : ']' ∉ t := fun hm => h3 (List.mem_append_left _ hm)
      simpa using h4
    · rw [if_neg hb]

theorem noPair_pyStrip {l : List Char} (h : noPair l = true) :
    noPair (pyStrip l) = true := by
  obtain ⟨J, hdecomp⟩ : ∃ J, l.dropWhile pyIsSpace = pyStrip l ++ J :=
    ⟨_, pyStrip_prefix_decomp l⟩
  exact @noPair_append_left _ J (hdecomp ▸ noPair_dropWhile h)

theorem noPair_name_clean {l : List Char} (h : '\n' ∉ l) :
    noPair (name_clean l) = true := by
  rw [name_clean]
  exact noPair_pyStrip (noPair_collapseWs (noPair_dotsToSpaces
    (noPair_removeBrackets l h)))

/-- On newline-free inputs the cleaning pipeline is idempotent. -/
theorem name_clean_idem {l : List Char} (h : '\n' ∉ l) :
    name_clean (name_clean l) = name_clean l := by
  have htidy : tidy (name_clean l) = true := by
    rw [name_clean]
    exact tidy_pyStrip_collapseWs _
  conv_lhs => rw [name_clean]
  rw [removeBrackets_of_noPair _ (noPair_name_clean h)]
  rw [dotsToSpaces_id (name_clean_no_dot l)]
  rw [collapseWs_id (tidy_tidyFrom htidy)]
  exact tidy_strip_id htidy

/-! ### Inversion of the matchers: a successful match yields a 4-digit year -/

theorem matchFourDigits_some {l a r : List Char}
    (h : matchFourDigits l = some (a, r)) :
    a.length = 4 ∧ a.all Char.isDigit = true := by
  unfold matchFourDigits at h
  split at h
  case h_2 => cases h
  case h_1 d1 d2 d3 d4 rr =>
    split at h
    case isFalse => cases h
    case isTrue hcond =>
      injection h with h
      injection h with h1 h2
      subst h1
      simp only [Bool.and_eq_true] at hcond
      obtain ⟨⟨⟨hd1, hd2⟩, hd3⟩, hd4⟩ := hcond
      exact ⟨rfl, by simp [hd1, hd2, hd3, hd4]⟩

theorem matchTwoNum_some {l a b : List Char} (h : matchTwoNum l = some (a, b)) :
    a.length = 4 ∧ a.all Char.isDigit = true ∧
      b.length = 4 ∧ b.all Char.isDigit = true := by
  unfold matchTwoNum at h
  split at h
  case h_1 => cases h
  case h_2 a2 rest heq =>
    dsimp only at h
    split at h
    case h_1 => cases h
    case h_2 b2 r4 heq2 =>
      split at h
      case isFalse => cases h
      case isTrue =>
        injection h with h
        injection h with h1 h2
        subst h1
        subst h2
        rcases matchFourDigits_some heq with ⟨hl1, hd1⟩
        rcases matchFourDigits_some heq2 with ⟨hl2, hd2⟩
        exact ⟨hl1, hd1, hl2, hd2⟩

theorem matchYear_some {s y : List Char} (h : matchYear s = some y) :
    y.length = 4 ∧ y.all Char.isDigit = true := by
  unfold matchYear at h
  split at h
  case h_2 => cases h
  case h_1 c1 c2 c3 c4 rest =>
    split at h
    case isFalse => cases h
    case isTrue hcond =>
      injection h with h
      subst h
      refine ⟨rfl, ?_⟩
      simp only [Bool.and_eq_true, Bool.or_eq_true, decide_eq_true_eq] at hcond
      obtain ⟨⟨⟨h12, h3⟩, h4⟩, _⟩ := hcond
      rcases h12 with ⟨rfl, rfl⟩ | ⟨rfl, rfl⟩ <;>
        simp [h3, h4, (by decide : ('1' : Char).isDigit = true),
          (by decide : ('9' : Char).isDigit = true),
          (by decide : ('2' : Char).isDigit = true),
          (by decide : ('0' : Char).isDigit = true)]

theorem tryTail_some {prev : Option Char} {s y : List Char}
    (h : tryTail prev s = some y) : ∃ s2, matchYear s2 = some y := by
  unfold tryTail at h
  dsimp only at h
  repeat' split at h
  all_goals first
    | exact ⟨_, h⟩
    | cases h

theorem styGo_year : ∀ (s : List Char) (prev : Option Char) (acc t y : List Char),
    styGo prev acc s = some (t, y) → ∃ s2, matchYear s2 = some y := by
  intro s
  induction s with
  | nil =>
    intro prev acc t y h
    rw [styGo] at h
    cases htt : tryTail prev [] with
    | some y2 =>
      rw [htt] at h
      simp only [Option.some.injEq, Prod.mk.injEq] at h
      rcases h with ⟨_, rfl⟩
      exact tryTail_some htt
    | none =>
      rw [htt] at h
      simp at h
  | cons c cs ih =>
    intro prev acc t y h
    rw [styGo] at h
    cases htt : tryTail prev (c :: cs) with
    | some y2 =>
      rw [htt] at h
      simp only [Option.some.injEq, Prod.mk.injEq] at h
      rcases h with ⟨_, rfl⟩
      exact tryTail_some htt
    | none =>
      rw [htt] at h
      simp only at h
      by_cases hc : c = '\n'
      · rw [if_pos hc] at h
        cases h
      · rw [if_neg hc] at h
        exact ih _ _ _ _ h

theorem searchTitleYear_year {s t y : List Char}
    (h : searchTitleYear s = some (t, y)) :
    y.length = 4 ∧ y.all Char.isDigit = true := by
  rcases styGo_year s none [] t y h with ⟨s2, h2⟩
  exact matchYear_some h2

theorem stripYearSuffix_shrinks (t y : List Char) (hy : y.length = 4)
    (hyd : y.all Char.isDigit = true) :
    (stripYearSuffix (t ++ ' ' :: '(' :: y ++ [')'])).length <
      (t ++ ' ' :: '(' :: y ++ [')']).length := by
  obtain ⟨y1, y2, y3, y4, rfl⟩ := list_len4 hy
  simp only [List.all_cons, List.all_nil, Bool.and_eq_true, Bool.and_true] at hyd
  obtain ⟨h1, h2, h3, h4⟩ := hyd
  rw [stripYearSuffix]
  have hrev : (t ++ ' ' :: '(' :: [y1, y2, y3, y4] ++ [')']).reverse =
      ')' :: y4 :: y3 :: y2 :: y1 :: '(' :: (' ' :: t.reverse) := by simp
  rw [hrev]
  simp only [h1, h2, h3, h4, Bool.and_true, Bool.true_and]
  rw [if_pos (by simp)]
  have hlen : ((' ' :: t.reverse).dropWhile pyIsSpace).length ≤ t.length + 1 := by
    have hsub : List.Sublist (List.dropWhile pyIsSpace (' ' :: t.reverse))
        (' ' :: t.reverse) := List.dropWhile_sublist pyIsSpace
    have := List.Sublist.length_le hsub
    simpa using this
  simp only [List.length_reverse, List.length_append, List.length_cons]
  simp at hlen
  omega

/-! ### Claim C6 -/

/-- C6 counterexample: the folder name `"[a\nb]"` (newlines are legal in
POSIX file names) satisfies the claim's hypothesis — its normalized form
`"[a b]"` carries no trailing `" (YYYY)"` suffix — yet `tv_normalize_name`
is not idempotent on it: the newline keeps `\[.*?\]` from matching on the
first pass, whitespace collapsing then turns the newline into a space, and
the second pass deletes the now-matchable bracket pair, yielding `""`. -/
theorem tv_idempotence_counterexample :
    stripYearSuffix (normalize_name_l "[a\nb]".toList) =
      normalize_name_l "[a\nb]".toList ∧
    tv_normalize_name "[a\nb]" = "[a b]" ∧
    tv_normalize_name (tv_normalize_name "[a\nb]") = "" ∧
    tv_normalize_name (tv_normalize_name "[a\nb]") ≠ tv_normalize_name "[a\nb]" :=
  ⟨by decide, by decide, by decide, by decide⟩

/-- C6 (amended): `tv_normalize_name "Show Name (2019)" = "Show Name"` and
`tv_normalize_name "Show Name" = "Show Name"`; and for every input that
contains no newline character and whose normalized form carries no trailing
`" (YYYY)"` suffix, `tv_normalize_name` is idempotent. -/
theorem tv_normalize_spec :
    tv_normalize_name "Show Name (2019)" = "Show Name" ∧
    tv_normalize_name "Show Name" = "Show Name" ∧
    ∀ x : List Char, '\n' ∉ x →
      stripYearSuffix (normalize_name_l x) = normalize_name_l x →
      tv_normalize_name_l (tv_normalize_name_l x) = tv_normalize_name_l x := by
  refine ⟨by decide, by decide, ?_⟩
  intro x hnl hfix
  have hbranch : (matchTwoNum (name_clean x) = none ∧
      (searchTitleYear (name_clean x) = none ∨
        ∃ t y, searchTitleYear (name_clean x) = some (t, y) ∧ trimTitle t = [])) ∨
      (∃ t y, y.length = 4 ∧ y.all Char.isDigit = true ∧
        normalize_name_l x = t ++ ' ' :: '(' :: y ++ [')']) := by
    cases hm : matchTwoNum (name_clean x) with
    | some ab =>
      right
      obtain ⟨a, b⟩ := ab
      rcases matchTwoNum_some hm with ⟨_, _, hb4, hbd⟩
      exact ⟨a, b, hb4, hbd, by rw [normalize_name_l, hm]⟩
    | none =>
      cases hs : searchTitleYear (name_clean x) with
      | some ty =>
        obtain ⟨t, y⟩ := ty
        by_cases ht : trimTitle t = []
        · exact Or.inl ⟨rfl, Or.inr ⟨t, y, rfl, ht⟩⟩
        · right
          rcases searchTitleYear_year hs with ⟨hy4, hyd⟩
          refine ⟨trimTitle t, y, hy4, hyd, ?_⟩
          rw [normalize_name_l, hm, hs]
          simp only [if_neg ht]
      | none => exact Or.inl ⟨rfl, Or.inl rfl⟩
  have hplain : matchTwoNum (name_clean x) = none ∧
      (searchTitleYear (name_clean x) = none ∨
        ∃ t y, searchTitleYear (name_clean x) = some (t, y) ∧ trimTitle t = []) := by
    rcases hbranch with h | ⟨t, y, hy4, hyd, hval⟩
    · exact h
    · exfalso
      have hlt := stripYearSuffix_shrinks t y hy4 hyd
      rw [← hval, hfix] at hlt
      exact lt_irrefl _ hlt
  obtain ⟨hm, hsearch⟩ := hplain
  have hnormx : normalize_name_l x = name_clean x := by
    rw [normalize_name_l, hm]
    rcases hsearch with hs | ⟨t, y, hs, ht⟩
    · rw [hs]
    · rw [hs]
      simp only [if_pos ht]
  have hncc : name_clean (name_clean x) = name_clean x := name_clean_idem hnl
  have hnorm2 : normalize_name_l (name_clean x) = name_clean x := by
    rw [normalize_name_l, hncc, hm]
    rcases hsearch with hs | ⟨t, y, hs, ht⟩
    · rw [hs]
    · rw [hs]
      simp only [if_pos ht]
  have htidy : tidy (name_clean x) = true := by
    rw [name_clean]
    exact tidy_pyStrip_collapseWs _
  have hstrip : pyStrip (name_clean x) = name_clean x := tidy_strip_id htidy
  have hfix2 : stripYearSuffix (name_clean x) = name_clean x := by
    rw [← hnormx]
    exact hfix
  have htvx : tv_normalize_name_l x = name_clean x := by
    rw [tv_normalize_name_l, hnormx, hfix2, hstrip]
    simp
  have htvn : tv_normalize_name_l (name_clean x) = name_clean x := by
    rw [tv_normalize_name_l, hnorm2, hfix2, hstrip]
    simp
  rw [htvx, htvn]

theorem tv_normalize_spec_witness :
    ('\n' ∉ "abc".toList) ∧
    stripYearSuffix (normalize_name_l "abc".toList) = normalize_name_l "abc".toList ∧
    tv_normalize_name_l (tv_normalize_name_l "abc".toList) =
      tv_normalize_name_l "abc".toList :=
  ⟨by decide, by decide,
   tv_normalize_spec.2.2 "abc".toList (by decide) (by decide)⟩

theorem isYearList_elim {Y : List Char} (h : isYearList Y = true) :
    ∃ c1 c2 c3 c4, Y = [c1, c2, c3, c4] ∧
      ((c1 = '1' ∧ c2 = '9') ∨ (c1 = '2' ∧ c2 = '0')) ∧
      c3.isDigit = true ∧ c4.isDigit = true := by
  unfold isYearList at h
  split at h
  case h_2 => cases h
  case h_1 c1 c2 c3 c4 =>
    simp only [Bool.and_eq_true, Bool.or_eq_true, decide_eq_true_eq] at h
    obtain ⟨⟨h12, h3⟩, h4⟩ := h
    exact ⟨c1, c2, c3, c4, rfl, h12, h3, h4⟩

theorem isYearList_digits {Y : List Char} (h : isYearList Y = true) :
    Y.length = 4 ∧ Y.all Char.isDigit = true := by
  rcases isYearList_elim h with ⟨c1, c2, c3, c4, rfl, h12, h3, h4⟩
  refine ⟨rfl, ?_⟩
  rcases h12 with ⟨rfl, rfl⟩ | ⟨rfl, rfl⟩ <;>
    simp [h3, h4, (by decide : ('1' : Char).isDigit = true),
      (by decide : ('9' : Char).isDigit = true),
      (by decide : ('2' : Char).isDigit = true),
      (by decide : ('0' : Char).isDigit = true)]

theorem mem_of_getLast? {l : List Char} {c : Char} (h : l.getLast? = some c) :
    c ∈ l := by
  cases l with
  | nil => simp at h
  | cons a t =>
    rw [List.getLast?_eq_getLast (a :: t) (by simp)] at h
    injection h with h
    exact h ▸ List.getLast_mem _

theorem dropWhile_ne_nil_of_getLast {l : List Char} {c : Char} {p : Char → Bool}
    (hgl : l.getLast? = some c) (hc : p c = false) : l.dropWhile p ≠ [] := by
  intro hnil
  rw [List.dropWhile_eq_nil_iff] at hnil
  rw [hnil c (mem_of_getLast? hgl)] at hc
  exact Bool.noConfusion hc

theorem getLast?_dropWhile {l : List Char} {p : Char → Bool}
    (h : l.dropWhile p ≠ []) : (l.dropWhile p).getLast? = l.getLast? := by
  obtain ⟨w, hw⟩ : ∃ w, w ++ List.dropWhile p l = l := List.dropWhile_suffix p
  conv_rhs => rw [← hw]
  rw [List.getLast?_append_of_ne_nil _ h]

theorem dropWhile_append_of_ne_nil {a : List Char} {p : Char → Bool}
    (m : List Char) (h : a.dropWhile p ≠ []) :
    (a ++ m).dropWhile p = a.dropWhile p ++ m := by
  induction a with
  | nil => exact absurd rfl h
  | cons c cs ih =>
    rw [List.cons_append, List.dropWhile_cons, List.dropWhile_cons]
    by_cases hp : p c = true
    · rw [if_pos hp, if_pos hp]
      apply ih
      rw [List.dropWhile_cons, if_pos hp] at h
      exact h
    · rw [if_neg (by simpa using hp), if_neg (by simpa using hp), List.cons_append]

theorem dropWhile_length_ge {p : Char → Bool} (m : List Char) : ∀ u : List Char,
    (m.dropWhile p).length ≤ ((u ++ m).dropWhile p).length := by
  intro u
  induction u with
  | nil => simp
  | cons c cs ih =>
    rw [List.cons_append, List.dropWhile_cons]
    by_cases hp : p c = true
    · rw [if_pos hp]
      exact ih
    · rw [if_neg (by simpa using hp)]
      calc (m.dropWhile p).length ≤ ((cs ++ m).dropWhile p).length := ih
        _ ≤ (cs ++ m).length :=
            List.Sublist.length_le (List.dropWhile_sublist p)
        _ ≤ (c :: (cs ++ m)).length := by simp

theorem dST_snd (p : Option Char) (l : List Char) :
    (dropSpacesTracking p l).2 = l.dropWhile pyIsSpace := by
  induction l generalizing p with
  | nil => rfl
  | cons c cs ih =>
    rw [dropSpacesTracking, List.dropWhile_cons]
    by_cases hc : pyIsSpace c = true
    · rw [if_pos hc, if_pos hc]
      exact ih _
    · rw [if_neg (by simpa using hc), if_neg (by simpa using hc)]

theorem dST_append {p : Option Char} {a : List Char} (m : List Char)
    (h : a.dropWhile pyIsSpace ≠ []) :
    dropSpacesTracking p (a ++ m) =
      ((dropSpacesTracking p a).1, (dropSpacesTracking p a).2 ++ m) := by
  induction a generalizing p with
  | nil => exact absurd rfl h
  | cons c cs ih =>
    rw [List.cons_append, dropSpacesTracking, dropSpacesTracking]
    by_cases hc : pyIsSpace c = true
    · rw [if_pos hc, if_pos hc]
      apply ih
      rw [List.dropWhile_cons, if_pos hc] at h
      exact h
    · rw [if_neg (by simpa using hc), if_neg (by simpa using hc)]
      rfl

theorem hasYearTokenGo_dST {l : List Char} : ∀ {p : Option Char},
    hasYearTokenGo p l = false →
    hasYearTokenGo (dropSpacesTracking p l).1 (dropSpacesTracking p l).2 = false := by
  induction l with
  | nil =>
    intro p h
    exact h
  | cons c cs ih =>
    intro p h
    rw [hasYearTokenGo] at h
    rcases Bool.or_eq_false_iff.mp h with ⟨h1, h2⟩
    rw [dropSpacesTracking]
    by_cases hc : pyIsSpace c = true
    · rw [if_pos hc]
      exact ih h2
    · rw [if_neg (by simpa using hc)]
      rw [hasYearTokenGo]
      exact Bool.or_eq_false_iff.mpr ⟨h1, h2⟩

theorem tidyFrom_ws_space {l : List Char} (h : tidyFrom l = true) :
    ∀ c ∈ l, pyIsSpace c = true → c = ' ' := by
  induction l with
  | nil => intro c hc; cases hc
  | cons a t ih =>
    intro c hc hw
    cases t with
    | nil =>
      rw [tidyFrom] at h
      rcases List.mem_cons.mp hc with rfl | hc2
      · rw [hw] at h
        exact absurd h (by decide)
      · cases hc2
    | cons b t2 =>
      rw [tidyFrom] at h
      rcases List.mem_cons.mp hc with rfl | hc2
      · rw [if_pos hw] at h
        simp only [Bool.and_eq_true, decide_eq_true_eq] at h
        exact h.1.1
      · have ht2 : tidyFrom (b :: t2) = true := by
          by_cases ha : pyIsSpace a = true
          · rw [if_pos ha] at h
            simp only [Bool.and_eq_true] at h
            exact h.2
          · rw [if_neg ha] at h
            exact h
        exact ih ht2 c hc2 hw

theorem tidy_no_nl {l : List Char} (h : tidy l = true) : '\n' ∉ l := by
  intro hm
  cases l with
  | nil => cases hm
  | cons c cs =>
    rw [tidy] at h
    rcases Bool.and_eq_true_iff.mp h with ⟨_, h2⟩
    have := tidyFrom_ws_space h2 '\n' hm (by decide)
    exact absurd this (by decide)

theorem tidyFrom_of_all_nonws {l : List Char} (h : ∀ c ∈ l, pyIsSpace c = false) :
    tidyFrom l = true := by
  induction l with
  | nil => rfl
  | cons a t ih =>
    cases t with
    | nil =>
      rw [tidyFrom]
      simp [h a (by simp)]
    | cons b t2 =>
      rw [tidyFrom, if_neg (by simp [h a (by simp)])]
      exact ih (fun c hc => h c (List.mem_cons_of_mem _ hc))

theorem tidyFrom_append_sep {l2 : List Char} (h2 : ∀ c ∈ l2, pyIsSpace c = false)
    (hne2 : l2 ≠ []) : ∀ l1 : List Char, tidyFrom l1 = true → l1 ≠ [] →
    tidyFrom (l1 ++ ' ' :: l2) = true := by
  intro l1
  induction l1 with
  | nil => intro _ h; exact absurd rfl h
  | cons a t ih =>
    intro h1 _
    cases t with
    | nil =>
      rw [tidyFrom] at h1
      rw [List.cons_append, List.nil_append, tidyFrom,
        if_neg (by simpa using h1)]
      cases l2 with
      | nil => exact absurd rfl hne2
      | cons b r =>
        rw [tidyFrom, if_pos (by decide)]
        rw [show pyIsSpace b = false from h2 b (by simp),
          tidyFrom_of_all_nonws (fun c hc => h2 c hc)]
        decide
    | cons b t2 =>
      rw [tidyFrom] at h1
      rw [List.cons_append, List.cons_append, tidyFrom]
      by_cases ha : pyIsSpace a = true
      · rw [if_pos ha] at h1 ⊢
        simp only [Bool.and_eq_true, Bool.not_eq_true', decide_eq_true_eq] at h1
        obtain ⟨⟨hsp, hb⟩, ht⟩ := h1
        have hih := ih ht (by simp)
        rw [List.cons_append] at hih
        rw [hsp, hb, hih]
        decide
      · rw [if_neg ha] at h1 ⊢
        have hih := ih h1 (by simp)
        rw [List.cons_append] at hih
        exact hih

theorem collapseWs_append_single_space : ∀ l : List Char, tidyFrom l = true →
    collapseWs (l ++ [' ']) = l ++ [' '] := by
  intro l
  induction l with
  | nil => intro _; rfl
  | cons a t ih =>
    intro h
    cases t with
    | nil =>
      rw [tidyFrom] at h
      have ha : pyIsSpace a = false := by simpa using h
      simp only [List.cons_append, List.nil_append]
      rw [collapseWs]
      rw [if_neg (by simp [ha]), if_neg (by simp [ha]),
        show collapseWs [' '] = [' '] from by decide]
    | cons b t2 =>
      rw [tidyFrom] at h
      simp only [List.cons_append]
      rw [collapseWs]
      by_cases ha : pyIsSpace a = true
      · rw [if_pos ha] at h
        simp only [Bool.and_eq_true, Bool.not_eq_true', decide_eq_true_eq] at h
        obtain ⟨⟨hsp, hb⟩, ht⟩ := h
        rw [if_neg (by simp [hb]), if_pos ha, hsp]
        have := ih ht
        rw [List.cons_append] at this
        rw [this]
      · rw [if_neg ha] at h
        rw [if_neg (by simp [ha]), if_neg ha]
        have := ih h
        rw [List.cons_append] at this
        rw [this]

theorem pyStrip_snoc_space {l : List Char} (h : tidy l = true) (hne : l ≠ []) :
    pyStrip (l ++ [' ']) = l := by
  cases l with
  | nil => exact absurd rfl hne
  | cons c cs =>
    rw [tidy] at h
    rcases Bool.and_eq_true_iff.mp h with ⟨hc, ht⟩
    rw [pyStrip]
    rw [List.cons_append, List.dropWhile_cons, if_neg (by simpa using hc)]
    rw [show (c :: (cs ++ [' '])) = (c :: cs) ++ [' '] from by simp]
    rw [List.reverse_append]
    rw [show ([' '] : List Char).reverse = [' '] from rfl]
    rw [List.singleton_append]
    rw [show ((' ' :: (c :: cs).reverse) : List Char).dropWhile pyIsSpace =
        (c :: cs).reverse.dropWhile pyIsSpace from by
      rw [List.dropWhile_cons, if_pos (by decide)]]
    rw [tidyFrom_last ht]
    simp

theorem removeBrackets_append_no_bracket {a : List Char} (m : List Char)
    (h : '[' ∉ a) : removeBrackets (a ++ m) = a ++ removeBrackets m := by
  induction a with
  | nil => rfl
  | cons c cs ih =>
    have hc : c ≠ '[' := fun he => h (he ▸ List.mem_cons_self c cs)
    rw [List.cons_append, removeBrackets_cons _ _ hc,
      ih (fun hm => h (List.mem_cons_of_mem _ hm)), List.cons_append]

theorem findClose_append_close {tag : List Char} (r : List Char)
    (h1 : ']' ∉ tag) (h2 : '\n' ∉ tag) :
    findClose (tag ++ ']' :: r) = some r := by
  induction tag with
  | nil => rw [List.nil_append, findClose, if_pos rfl]
  | cons c cs ih =>
    have hc1 : c ≠ ']' := fun he => h1 (he ▸ List.mem_cons_self c cs)
    have hc2 : c ≠ '\n' := fun he => h2 (he ▸ List.mem_cons_self c cs)
    rw [List.cons_append, findClose, if_neg hc1, if_neg hc2]
    exact ih (fun hm => h1 (List.mem_cons_of_mem _ hm))
      (fun hm => h2 (List.mem_cons_of_mem _ hm))

theorem matchFourDigits_decomp {l a r : List Char}
    (h : matchFourDigits l = some (a, r)) :
    l = a ++ r ∧ a.length = 4 ∧ a.all Char.isDigit = true := by
  rcases matchFourDigits_some h with ⟨h4, hd⟩
  unfold matchFourDigits at h
  split at h
  case h_2 => cases h
  case h_1 d1 d2 d3 d4 rr =>
    split at h
    case isFalse => cases h
    case isTrue =>
      injection h with h
      injection h with h1 h2
      subst h1
      subst h2
      exact ⟨rfl, h4, hd⟩

theorem getLast?_cons_of_ne_nil {c : Char} {t : List Char} (h : t ≠ []) :
    (c :: t).getLast? = t.getLast? := by
  rw [show c :: t = [c] ++ t from rfl, List.getLast?_append_of_ne_nil _ h]

theorem matchYear_cons (c1 c2 c3 c4 : Char) (rest : List Char) :
    matchYear (c1 :: c2 :: c3 :: c4 :: rest) =
      if ((c1 = '1' && c2 = '9') || (c1 = '2' && c2 = '0')) && c3.isDigit && c4.isDigit
          && (match rest with | [] => true | r :: _ => !isWordChar r) then
        some [c1, c2, c3, c4]
      else none := rfl

theorem matchYearB_of_append {p : Option Char} {w Y y : List Char}
    (hY4 : Y.length = 4) (hw : w ≠ []) (hb : boundaryOk p = true)
    (h : matchYear (w ++ ' ' :: Y) = some y) : matchYearB p w = true := by
  obtain ⟨y1, y2, y3, y4, rfl⟩ := list_len4 hY4
  rcases w with _ | ⟨a, _ | ⟨b, _ | ⟨c, _ | ⟨d, wr⟩⟩⟩⟩
  · exact absurd rfl hw
  · exfalso
    rw [show ([a] ++ ' ' :: [y1, y2, y3, y4]) =
        a :: ' ' :: y1 :: y2 :: y3 :: y4 :: [] from rfl, matchYear] at h
    split at h
    case isFalse => cases h
    case isTrue hcond =>
      simp only [Bool.and_eq_true, Bool.or_eq_true, decide_eq_true_eq] at hcond
      obtain ⟨⟨⟨h12, _⟩, _⟩, _⟩ := hcond
      rcases h12 with ⟨_, h2⟩ | ⟨_, h2⟩ <;> exact absurd h2 (by decide)
  · exfalso
    rw [show ([a, b] ++ ' ' :: [y1, y2, y3, y4]) =
        a :: b :: ' ' :: y1 :: y2 :: y3 :: y4 :: [] from rfl, matchYear] at h
    split at h
    case isFalse => cases h
    case isTrue hcond =>
      simp only [Bool.and_eq_true, Bool.or_eq_true, decide_eq_true_eq] at hcond
      obtain ⟨⟨⟨_, h3⟩, _⟩, _⟩ := hcond
      exact absurd h3 (by decide)
  · exfalso
    rw [show ([a, b, c] ++ ' ' :: [y1, y2, y3, y4]) =
        a :: b :: c :: ' ' :: y1 :: y2 :: y3 :: y4 :: [] from rfl, matchYear] at h
    split at h
    case isFalse => cases h
    case isTrue hcond =>
      simp only [Bool.and_eq_true, Bool.or_eq_true, decide_eq_true_eq] at hcond
      obtain ⟨⟨⟨_, _⟩, h4⟩, _⟩ := hcond
      exact absurd h4 (by decide)
  · rw [show ((a :: b :: c :: d :: wr) ++ ' ' :: [y1, y2, y3, y4]) =
        a :: b :: c :: d :: (wr ++ ' ' :: [y1, y2, y3, y4]) from rfl, matchYear_cons] at h
    split at h
    case isFalse => cases h
    case isTrue hcond =>
      simp only [Bool.and_eq_true, Bool.or_eq_true, decide_eq_true_eq] at hcond
      obtain ⟨⟨⟨h12, h3⟩, h4⟩, hrest⟩ := hcond
      cases wr with
      | nil =>
        simp only [matchYearB, hb, Bool.true_and, Bool.and_true, Bool.and_eq_true,
          Bool.or_eq_true, decide_eq_true_eq]
        exact ⟨⟨h12, h3⟩, h4⟩
      | cons r wr2 =>
        simp only [List.cons_append] at hrest
        simp only [matchYearB, hb, Bool.true_and, Bool.and_eq_true,
          Bool.or_eq_true, decide_eq_true_eq]
        exact ⟨⟨⟨h12, h3⟩, h4⟩, hrest⟩

theorem noYear_tail_aux {p : Option Char} {w Y : List Char}
    (hY4 : Y.length = 4) (hw : w ≠ [])
    (hgo : hasYearTokenGo p w = false) :
    (if boundaryOk p = true then matchYear (w ++ ' ' :: Y) else none) = none := by
  by_cases hbd : boundaryOk p = true
  · rw [if_pos hbd]
    cases hm : matchYear (w ++ ' ' :: Y) with
    | none => rfl
    | some yy =>
      exfalso
      obtain ⟨w1, wr, rfl⟩ : ∃ w1 wr, w = w1 :: wr := by
        cases w with
        | nil => exact absurd rfl hw
        | cons w1 wr => exact ⟨w1, wr, rfl⟩
      rw [hasYearTokenGo] at hgo
      rcases Bool.or_eq_false_iff.mp hgo with ⟨h1, _⟩
      rw [matchYearB_of_append hY4 hw hbd hm] at h1
      exact Bool.noConfusion h1
  · rw [if_neg hbd]

theorem tryTail_none_of_noYear {u Y : List Char} {prev : Option Char}
    (hY4 : Y.length = 4)
    (hne : u ≠ [])
    (hlast : ∀ c, u.getLast? = some c → pyIsSpace c = false ∧ c ≠ '(')
    (hno : hasYearTokenGo prev u = false) :
    tryTail prev (u ++ ' ' :: Y) = none := by
  obtain ⟨lc, hlc⟩ : ∃ c, u.getLast? = some c := by
    cases hgl : u.getLast? with
    | none => exact absurd (List.getLast?_eq_none_iff.mp hgl) hne
    | some c => exact ⟨c, rfl⟩
  obtain ⟨hlw, hlp⟩ := hlast lc hlc
  have hdw : u.dropWhile pyIsSpace ≠ [] := dropWhile_ne_nil_of_getLast hlc hlw
  unfold tryTail
  dsimp only
  rw [dST_append (' ' :: Y) hdw]
  obtain ⟨p1, v, hpv⟩ : ∃ p1 v, dropSpacesTracking prev u = (p1, v) := ⟨_, _, rfl⟩
  rw [hpv]
  dsimp only
  have hveq : v = u.dropWhile pyIsSpace := by
    have hsnd := dST_snd prev u
    rw [hpv] at hsnd
    exact hsnd
  have hvne : v ≠ [] := hveq ▸ hdw
  have hvlast : v.getLast? = some lc := by
    rw [hveq, getLast?_dropWhile hdw, hlc]
  have hgo1 : hasYearTokenGo p1 v = false := by
    have hgd := hasYearTokenGo_dST hno
    rw [hpv] at hgd
    exact hgd
  obtain ⟨v1, v2, rfl⟩ : ∃ v1 v2, v = v1 :: v2 := by
    cases v with
    | nil => exact absurd rfl hvne
    | cons v1 v2 => exact ⟨v1, v2, rfl⟩
  have hv1w : pyIsSpace v1 = false := dropWhile_head_false hveq.symm
  rw [List.cons_append]
  simp only [List.head?_cons, List.tail_cons]
  by_cases hpar : v1 = '('
  · subst hpar
    rw [if_pos rfl]
    dsimp only
    have hv2ne : v2 ≠ [] := by
      intro hnil
      subst hnil
      rw [show (['('] : List Char).getLast? = some '(' from rfl] at hvlast
      injection hvlast with hvlast
      exact hlp hvlast.symm
    have hv2last : v2.getLast? = some lc := by
      rw [← @getLast?_cons_of_ne_nil '(' _ hv2ne]
      exact hvlast
    have hdw2 : v2.dropWhile pyIsSpace ≠ [] := dropWhile_ne_nil_of_getLast hv2last hlw
    rw [dST_append (' ' :: Y) hdw2]
    obtain ⟨p3, w, hpw⟩ : ∃ p3 w, dropSpacesTracking (some '(') v2 = (p3, w) := ⟨_, _, rfl⟩
    rw [hpw]
    dsimp only
    have hweq : w = List.dropWhile pyIsSpace v2 := by
      have hsnd := dST_snd (some '(') v2
      rw [hpw] at hsnd
      exact hsnd
    have hwne : w ≠ [] := by
      rw [hweq]
      exact hdw2
    have hgo2 : hasYearTokenGo (some '(') v2 = false := by
      rw [hasYearTokenGo] at hgo1
      exact (Bool.or_eq_false_iff.mp hgo1).2
    have hgo3 : hasYearTokenGo p3 w = false := by
      have hgd := hasYearTokenGo_dST hgo2
      rw [hpw] at hgd
      exact hgd
    exact noYear_tail_aux hY4 hwne hgo3
  · rw [if_neg (show ¬ (some v1 = some '(') from by simp [hpar])]
    dsimp only
    rw [dropSpacesTracking, if_neg (show ¬ pyIsSpace v1 = true from by simp [hv1w])]
    dsimp only
    rw [show v1 :: (v2 ++ ' ' :: Y) = (v1 :: v2) ++ ' ' :: Y from rfl]
    exact noYear_tail_aux hY4 (by simp) hgo1

theorem tryTail_space_year {Y : List Char} (hY : isYearList Y = true)
    (prev : Option Char) : tryTail prev (' ' :: Y) = some Y := by
  rcases isYearList_elim hY with ⟨c1, c2, c3, c4, rfl, h12, h3, h4⟩
  have hc1 : pyIsSpace c1 = false ∧ c1 ≠ '(' := by
    rcases h12 with ⟨rfl, _⟩ | ⟨rfl, _⟩ <;> exact ⟨by decide, by decide⟩
  unfold tryTail
  dsimp only
  rw [dropSpacesTracking, if_pos (show pyIsSpace ' ' = true from by decide)]
  rw [dropSpacesTracking, if_neg (show ¬ pyIsSpace c1 = true from by simp [hc1.1])]
  dsimp only
  simp only [List.head?_cons]
  rw [if_neg (show ¬ (some c1 = some '(') from by simp [hc1.2])]
  dsimp only
  rw [dropSpacesTracking, if_neg (show ¬ pyIsSpace c1 = true from by simp [hc1.1])]
  dsimp only
  rw [show boundaryOk (some ' ') = true from by decide, if_pos rfl]
  rw [matchYear_cons, if_pos ?_]
  · simp only [Bool.and_eq_true, Bool.or_eq_true, decide_eq_true_eq]
    exact ⟨⟨⟨h12, h3⟩, h4⟩, trivial⟩

theorem styGo_append {Y : List Char} (hY : isYearList Y = true) :
    ∀ (u : List Char) (prev : Option Char) (acc : List Char),
    '\n' ∉ u →
    (∀ c, u.getLast? = some c → pyIsSpace c = false ∧ c ≠ '(') →
    hasYearTokenGo prev u = false →
    styGo prev acc (u ++ ' ' :: Y) = some (acc.reverse ++ u, Y) := by
  have hY4 : Y.length = 4 := (isYearList_digits hY).1
  intro u
  induction u with
  | nil =>
    intro prev acc _ _ _
    rw [List.nil_append, styGo, tryTail_space_year hY prev]
    simp
  | cons c cs ih =>
    intro prev acc hnl hlast hno
    rw [List.cons_append, styGo]
    have htt : tryTail prev (c :: (cs ++ ' ' :: Y)) = none := by
      rw [← List.cons_append]
      exact tryTail_none_of_noYear hY4 (by simp) hlast hno
    rw [htt]
    dsimp only
    have hcnl : c ≠ '\n' := fun he => hnl (he ▸ List.mem_cons_self c cs)
    rw [if_neg hcnl]
    have hlast2 : ∀ x, cs.getLast? = some x → pyIsSpace x = false ∧ x ≠ '(' := by
      intro x hx
      apply hlast
      cases cs with
      | nil => simp at hx
      | cons d ds =>
        rw [getLast?_cons_of_ne_nil (by simp)]
        exact hx
    have hno2 : hasYearTokenGo (some c) cs = false := by
      rw [hasYearTokenGo] at hno
      exact (Bool.or_eq_false_iff.mp hno).2
    rw [ih (some c) (c :: acc) (fun hm => hnl (List.mem_cons_of_mem _ hm)) hlast2 hno2]
    simp

theorem matchFourDigits_cons (d1 d2 d3 d4 : Char) (r : List Char) :
    matchFourDigits (d1 :: d2 :: d3 :: d4 :: r) =
      if d1.isDigit && d2.isDigit && d3.isDigit && d4.isDigit then
        some ([d1, d2, d3, d4], r)
      else none := rfl

theorem matchTwoNum_append_inv {X Y a b : List Char}
    (hY : isYearList Y = true)
    (hlast : ∀ c, X.getLast? = some c → pyIsSpace c = false ∧ c ≠ '(')
    (h : matchTwoNum (X ++ ' ' :: Y) = some (a, b)) : a = X ∧ b = Y := by
  rcases isYearList_elim hY with ⟨y1, y2, y3, y4, rfl, h12, hy3, hy4⟩
  have hy1w : pyIsSpace y1 = false := by
    rcases h12 with ⟨rfl, _⟩ | ⟨rfl, _⟩ <;> decide
  have hy1p : y1 ≠ '(' := by
    rcases h12 with ⟨rfl, _⟩ | ⟨rfl, _⟩ <;> decide
  have hy1d : y1.isDigit = true := by
    rcases h12 with ⟨rfl, _⟩ | ⟨rfl, _⟩ <;> decide
  have hy2d : y2.isDigit = true := by
    rcases h12 with ⟨_, rfl⟩ | ⟨_, rfl⟩ <;> decide
  have hspd : (' ' : Char).isDigit = false := by decide
  rcases X with _ | ⟨x1, _ | ⟨x2, _ | ⟨x3, _ | ⟨x4, X2⟩⟩⟩⟩
  · unfold matchTwoNum at h
    rw [show (([] : List Char) ++ ' ' :: [y1, y2, y3, y4]) =
        ' ' :: y1 :: y2 :: y3 :: y4 :: [] from rfl, matchFourDigits_cons,
      if_neg (show ¬ ((' ' : Char).isDigit && y1.isDigit && y2.isDigit
        && y3.isDigit) = true from by simp [hspd])] at h
    simp at h
  · unfold matchTwoNum at h
    rw [show (([x1] : List Char) ++ ' ' :: [y1, y2, y3, y4]) =
        x1 :: ' ' :: y1 :: y2 :: y3 :: y4 :: [] from rfl, matchFourDigits_cons,
      if_neg (show ¬ (x1.isDigit && (' ' : Char).isDigit && y1.isDigit
        && y2.isDigit) = true from by simp [hspd])] at h
    simp at h
  · unfold matchTwoNum at h
    rw [show (([x1, x2] : List Char) ++ ' ' :: [y1, y2, y3, y4]) =
        x1 :: x2 :: ' ' :: y1 :: y2 :: y3 :: y4 :: [] from rfl, matchFourDigits_cons,
      if_neg (show ¬ (x1.isDigit && x2.isDigit && (' ' : Char).isDigit
        && y1.isDigit) = true from by simp [hspd])] at h
    simp at h
  · unfold matchTwoNum at h
    rw [show (([x1, x2, x3] : List Char) ++ ' ' :: [y1, y2, y3, y4]) =
        x1 :: x2 :: x3 :: ' ' :: y1 :: y2 :: y3 :: y4 :: [] from rfl, matchFourDigits_cons,
      if_neg (show ¬ (x1.isDigit && x2.isDigit && x3.isDigit
        && (' ' : Char).isDigit) = true from by simp [hspd])] at h
    simp at h
  · unfold matchTwoNum at h
    rw [show ((x1 :: x2 :: x3 :: x4 :: X2) ++ ' ' :: [y1, y2, y3, y4]) =
        x1 :: x2 :: x3 :: x4 :: (X2 ++ ' ' :: [y1, y2, y3, y4]) from rfl,
      matchFourDigits_cons] at h
    split at h
    case h_1 => cases h
    case h_2 a2 rest heq =>
      split at heq
      case isFalse => cases heq
      case isTrue hd4 =>
        injection heq with heq
        injection heq with heqa heqr
        subst heqa
        subst heqr
        dsimp only at h
        cases X2 with
        | nil =>
          rw [List.nil_append] at h
          rw [show List.dropWhile pyIsSpace (' ' :: y1 :: y2 :: y3 :: y4 :: []) =
              y1 :: y2 :: y3 :: y4 :: [] from by
            rw [List.dropWhile_cons, if_pos (show pyIsSpace ' ' = true from by decide),
              List.dropWhile_cons,
              if_neg (show ¬ pyIsSpace y1 = true from by simp [hy1w])]] at h
          simp only [List.head?_cons] at h
          rw [if_neg (show ¬ (some y1 = some '(') from by simp [hy1p])] at h
          rw [show List.dropWhile pyIsSpace (y1 :: y2 :: y3 :: y4 :: []) =
              y1 :: y2 :: y3 :: y4 :: [] from by
            rw [List.dropWhile_cons,
              if_neg (show ¬ pyIsSpace y1 = true from by simp [hy1w])]] at h
          rw [matchFourDigits_cons,
            if_pos (show (y1.isDigit && y2.isDigit && y3.isDigit && y4.isDigit) = true from by
              simp [hy1d, hy2d, hy3, hy4])] at h
          dsimp only at h
          rw [if_pos (show List.dropWhile pyIsSpace ([] : List Char) = [] ∨
            List.dropWhile pyIsSpace ([] : List Char) = [')'] from Or.inl rfl)] at h
          simp only [Option.some.injEq, Prod.mk.injEq] at h
          exact ⟨h.1.symm, h.2.symm⟩
        | cons z zs =>
          obtain ⟨lc, hlc⟩ : ∃ c, (z :: zs).getLast? = some c := by
            cases hgl : (z :: zs).getLast? with
            | none => exact absurd (List.getLast?_eq_none_iff.mp hgl) (by simp)
            | some c => exact ⟨c, rfl⟩
          obtain ⟨hlw, hlp⟩ : pyIsSpace lc = false ∧ lc ≠ '(' := by
            apply hlast
            rw [show x1 :: x2 :: x3 :: x4 :: z :: zs =
                [x1, x2, x3, x4] ++ z :: zs from rfl,
              List.getLast?_append_of_ne_nil _ (by simp)]
            exact hlc
          have hdw : (z :: zs).dropWhile pyIsSpace ≠ [] :=
            dropWhile_ne_nil_of_getLast hlc hlw
          rw [dropWhile_append_of_ne_nil (' ' :: [y1, y2, y3, y4]) hdw] at h
          obtain ⟨v1, v2, hveq⟩ : ∃ v1 v2,
              (z :: zs).dropWhile pyIsSpace = v1 :: v2 := by
            cases hv : (z :: zs).dropWhile pyIsSpace with
            | nil => exact absurd hv hdw
            | cons v1 v2 => exact ⟨v1, v2, rfl⟩
          have hv1w : pyIsSpace v1 = false := dropWhile_head_false hveq
          have hvlast : (v1 :: v2).getLast? = some lc := by
            rw [← hveq, getLast?_dropWhile hdw]
            exact hlc
          rw [hveq, List.cons_append] at h
          simp only [List.head?_cons, List.tail_cons] at h
          obtain ⟨w, hwne, hr3⟩ : ∃ w, w ≠ [] ∧
              (if some v1 = some '(' then v2 ++ ' ' :: [y1, y2, y3, y4]
               else v1 :: (v2 ++ ' ' :: [y1, y2, y3, y4])).dropWhile pyIsSpace
                = w ++ ' ' :: [y1, y2, y3, y4] := by
            by_cases hpar : v1 = '('
            · subst hpar
              rw [if_pos rfl]
              have hv2ne : v2 ≠ [] := by
                intro hnil
                subst hnil
                rw [show (['('] : List Char).getLast? = some '(' from rfl] at hvlast
                injection hvlast with hvlast
                exact hlp hvlast.symm
              have hv2last : v2.getLast? = some lc := by
                rw [← @getLast?_cons_of_ne_nil '(' _ hv2ne]
                exact hvlast
              have hdw2 : v2.dropWhile pyIsSpace ≠ [] :=
                dropWhile_ne_nil_of_getLast hv2last hlw
              exact ⟨v2.dropWhile pyIsSpace, hdw2, dropWhile_append_of_ne_nil _ hdw2⟩
            · rw [if_neg (show ¬ (some v1 = some '(') from by simp [hpar])]
              refine ⟨v1 :: v2, by simp, ?_⟩
              rw [List.dropWhile_cons,
                if_neg (show ¬ pyIsSpace v1 = true from by simp [hv1w])]
              rw [List.cons_append]
          rw [hr3] at h
          rcases w with _ | ⟨w1, _ | ⟨w2, _ | ⟨w3, _ | ⟨w4, wr⟩⟩⟩⟩
          · exact absurd rfl hwne
          · rw [show (([w1] : List Char) ++ ' ' :: [y1, y2, y3, y4]) =
                w1 :: ' ' :: y1 :: y2 :: y3 :: y4 :: [] from rfl, matchFourDigits_cons,
              if_neg (show ¬ (w1.isDigit && (' ' : Char).isDigit && y1.isDigit
                && y2.isDigit) = true from by simp [hspd])] at h
            simp at h
          · rw [show (([w1, w2] : List Char) ++ ' ' :: [y1, y2, y3, y4]) =
                w1 :: w2 :: ' ' :: y1 :: y2 :: y3 :: y4 :: [] from rfl, matchFourDigits_cons,
              if_neg (show ¬ (w1.isDigit && w2.isDigit && (' ' : Char).isDigit
                && y1.isDigit) = true from by simp [hspd])] at h
            simp at h
          · rw [show (([w1, w2, w3] : List Char) ++ ' ' :: [y1, y2, y3, y4]) =
                w1 :: w2 :: w3 :: ' ' :: y1 :: y2 :: y3 :: y4 :: [] from rfl, matchFourDigits_cons,
              if_neg (show ¬ (w1.isDigit && w2.isDigit && w3.isDigit
                && (' ' : Char).isDigit) = true from by simp [hspd])] at h
            simp at h
          · rw [show ((w1 :: w2 :: w3 :: w4 :: wr) ++ ' ' :: [y1, y2, y3, y4]) =
                w1 :: w2 :: w3 :: w4 :: (wr ++ ' ' :: [y1, y2, y3, y4]) from rfl,
              matchFourDigits_cons] at h
            split at h
            case h_1 => cases h
            case h_2 b2 r4 heq2 =>
              split at heq2
              case isFalse => cases heq2
              case isTrue hd4b =>
                injection heq2 with heq2
                injection heq2 with heqb heqr2
                subst heqb
                subst heqr2
                have hlen : 4 ≤ ((wr ++ ' ' :: [y1, y2, y3, y4]).dropWhile pyIsSpace).length := by
                  have hstep := @dropWhile_length_ge pyIsSpace (' ' :: [y1, y2, y3, y4]) wr
                  rw [show List.dropWhile pyIsSpace (' ' :: [y1, y2, y3, y4]) =
                      [y1, y2, y3, y4] from by
                    rw [List.dropWhile_cons, if_pos (show pyIsSpace ' ' = true from by decide),
                      List.dropWhile_cons,
                      if_neg (show ¬ pyIsSpace y1 = true from by simp [hy1w])]] at hstep
                  simpa using hstep
                split at h
                case isTrue hcond =>
                  rcases hcond with h0 | h0 <;> rw [h0] at hlen <;> simp at hlen
                case isFalse => cases h

theorem isYearList_mem_digit {Y : List Char} (h : isYearList Y = true) :
    ∀ c ∈ Y, c.isDigit = true := by
  rcases isYearList_elim h with ⟨c1, c2, c3, c4, rfl, h12, h3, h4⟩
  intro c hc
  simp only [List.mem_cons, List.not_mem_nil, or_false] at hc
  rcases hc with rfl | rfl | rfl | rfl
  · rcases h12 with ⟨rfl, _⟩ | ⟨rfl, _⟩ <;> decide
  · rcases h12 with ⟨_, rfl⟩ | ⟨_, rfl⟩ <;> decide
  · exact h3
  · exact h4

theorem tidy_append_sep {l1 l2 : List Char} (h1 : tidy l1 = true) (hne1 : l1 ≠ [])
    (h2 : ∀ c ∈ l2, pyIsSpace c = false) (hne2 : l2 ≠ []) :
    tidy (l1 ++ ' ' :: l2) = true := by
  cases l1 with
  | nil => exact absurd rfl hne1
  | cons c cs =>
    rw [tidy] at h1
    rcases Bool.and_eq_true_iff.mp h1 with ⟨hc, ht⟩
    rw [List.cons_append, tidy]
    refine Bool.and_eq_true_iff.mpr ⟨hc, ?_⟩
    have hto := tidyFrom_append_sep h2 hne2 (c :: cs) ht (by simp)
    rw [List.cons_append] at hto
    exact hto

/-- The cleaned form of a dotted `X.YYYY.[tag]` name: the bracket group
vanishes, the separator dots become spaces, and the trailing space is
stripped, leaving the spaced-out title, a space, and the year digits. -/
theorem name_clean_dotted {X Y tag : List Char}
    (hX0 : dotsToSpaces X ≠ [])
    (htidy : tidy (dotsToSpaces X) = true)
    (hbr : '[' ∉ X)
    (hY : isYearList Y = true)
    (htag1 : ']' ∉ tag) (htag2 : '\n' ∉ tag) :
    name_clean (X ++ '.' :: Y ++ '.' :: '[' :: tag ++ [']']) =
      dotsToSpaces X ++ ' ' :: Y := by
  have hYd := isYearList_mem_digit hY
  have hYnws : ∀ c ∈ Y, pyIsSpace c = false := fun c hc => digit_not_space (hYd c hc)
  have hYne : Y ≠ [] := by
    rcases isYearList_elim hY with ⟨c1, c2, c3, c4, rfl, _, _, _⟩
    simp
  have hbrY : '[' ∉ Y := by
    intro hm
    exact absurd (hYd '[' hm) (by decide)
  have hrb : removeBrackets (X ++ '.' :: Y ++ '.' :: '[' :: tag ++ [']']) =
      X ++ '.' :: Y ++ ['.'] := by
    rw [show X ++ '.' :: Y ++ '.' :: '[' :: tag ++ [']'] =
        X ++ ('.' :: (Y ++ ('.' :: ('[' :: (tag ++ [']']))))) from by simp]
    rw [removeBrackets_append_no_bracket _ hbr]
    rw [removeBrackets_cons _ _ (by decide)]
    rw [removeBrackets_append_no_bracket _ hbrY]
    rw [removeBrackets_cons _ _ (by decide)]
    rw [removeBrackets_bracket]
    rw [findClose_append_close [] htag1 htag2]
    simp [removeBrackets_nil]
  have hmap : ∀ (u v : List Char),
      dotsToSpaces (u ++ v) = dotsToSpaces u ++ dotsToSpaces v := by
    intro u v
    simp [dotsToSpaces]
  have hdotY : dotsToSpaces Y = Y :=
    dotsToSpaces_id (fun hm => absurd (hYd '.' hm) (by decide))
  have hdots : dotsToSpaces (X ++ '.' :: Y ++ ['.']) =
      dotsToSpaces X ++ ' ' :: Y ++ [' '] := by
    rw [show X ++ '.' :: Y ++ ['.'] = X ++ (['.'] ++ (Y ++ ['.'])) from by simp]
    rw [hmap, hmap, hmap, hdotY, show dotsToSpaces ['.'] = [' '] from by decide]
    simp
  have htf : tidyFrom (dotsToSpaces X ++ ' ' :: Y) = true :=
    tidyFrom_append_sep hYnws hYne (dotsToSpaces X) (tidy_tidyFrom htidy) hX0
  have htidy2 : tidy (dotsToSpaces X ++ ' ' :: Y) = true :=
    tidy_append_sep htidy hX0 hYnws hYne
  have hne2 : dotsToSpaces X ++ ' ' :: Y ≠ [] := by
    cases dotsToSpaces X <;> simp
  rw [name_clean, hrb, hdots]
  rw [collapseWs_append_single_space _ htf]
  exact pyStrip_snoc_space htidy2 hne2

theorem trimTitle_id {l : List Char} (h : tidy l = true)
    (hlast : ∀ c, l.getLast? = some c → pyIsSpace c = false ∧ c ≠ '(') :
    trimTitle l = l := by
  rw [trimTitle, tidy_strip_id h]
  cases l with
  | nil => rfl
  | cons c cs =>
    obtain ⟨lc, hlc⟩ : ∃ x, (c :: cs).getLast? = some x := by
      cases hgl : (c :: cs).getLast? with
      | none => exact absurd (List.getLast?_eq_none_iff.mp hgl) (by simp)
      | some x => exact ⟨x, rfl⟩
    obtain ⟨hw, hp⟩ := hlast lc hlc
    obtain ⟨t, ht⟩ : ∃ t, (c :: cs).reverse = lc :: t := by
      have hh : (c :: cs).reverse.head? = some lc := by
        rw [← List.getLast?_eq_head?_reverse]
        exact hlc
      cases hrev : (c :: cs).reverse with
      | nil => rw [hrev] at hh; cases hh
      | cons r t =>
        rw [hrev] at hh
        injection hh with hh
        exact ⟨t, by rw [hh]⟩
    rw [ht, List.dropWhile_cons, if_neg (by simp [hw, hp])]
    rw [← ht, List.reverse_reverse]

/-- C1: normalization of dotted names of the form `X.YYYY.[tag]` with
`YYYY` a year in 1900-2099.  The spec's claim holds under side conditions
on the title part `X` that the spec leaves implicit: the spaced-out title
must be nonempty, already whitespace-normal, bracket-free, must not end in
whitespace or `'('`, and — crucially — must not itself contain a
word-bounded year token, otherwise the year regex locks onto the earlier
token inside `X` instead of `YYYY` (see the counterexample). -/
theorem dotted_name_normalization (X Y tag : List Char)
    (hX0 : dotsToSpaces X ≠ [])
    (htidy : tidy (dotsToSpaces X) = true)
    (hbr : '[' ∉ X)
    (hlast : ∀ c, (dotsToSpaces X).getLast? = some c →
        pyIsSpace c = false ∧ c ≠ '(')
    (hyear : hasYearToken (dotsToSpaces X) = false)
    (hY : isYearList Y = true)
    (htag1 : ']' ∉ tag) (htag2 : '\n' ∉ tag) :
    normalize_name_l (X ++ '.' :: Y ++ '.' :: '[' :: tag ++ [']']) =
      dotsToSpaces X ++ ' ' :: '(' :: Y ++ [')'] := by
  have hnc := name_clean_dotted hX0 htidy hbr hY htag1 htag2
  rw [normalize_name_l]
  dsimp only
  rw [hnc]
  cases hm : matchTwoNum (dotsToSpaces X ++ ' ' :: Y) with
  | some ab =>
    obtain ⟨a2, b2⟩ := ab
    dsimp only
    obtain ⟨rfl, rfl⟩ := matchTwoNum_append_inv hY hlast hm
    rfl
  | none =>
    dsimp only
    have hsty : searchTitleYear (dotsToSpaces X ++ ' ' :: Y) =
        some (dotsToSpaces X, Y) := by
      rw [searchTitleYear]
      have hgo := styGo_append hY (dotsToSpaces X) none [] (tidy_no_nl htidy)
        hlast hyear
      simpa using hgo
    rw [hsty]
    dsimp only
    rw [trimTitle_id htidy hlast]
    rw [if_neg hX0]

/-- Witness for C1 at `"The.Matrix.1999.[x]"`: instantiating the claim
theorem yields `"The Matrix (1999)"`. -/

theorem dotted_name_normalization_witness :
    normalize_name_l ("The.Matrix".toList ++ '.' :: "1999".toList ++
        '.' :: '[' :: "x".toList ++ [']']) = "The Matrix (1999)".toList := by
  have hlastw : ∀ c, (dotsToSpaces "The.Matrix".toList).getLast? = some c →
      pyIsSpace c = false ∧ c ≠ '(' := by
    intro c hc
    rw [show (dotsToSpaces "The.Matrix".toList).getLast? = some 'x' from by decide] at hc
    injection hc with hc
    subst hc
    exact ⟨by decide, by decide⟩
  rw [dotted_name_normalization "The.Matrix".toList "1999".toList "x".toList
    (by decide) (by decide) (by decide) hlastw (by decide) (by decide)
    (by decide) (by decide)]
  decide

/-- Counterexample to C1 as literally stated: for `X = "Blade.Runner.2049"`,
`YYYY = 2022`, `tag = "x"` — a name of the spec's form with the year in
range — the result is `"Blade Runner (2049)"`, not `"X (YYYY)"` =
`"Blade Runner 2049 (2022)"`: the search regex captures the first
word-bounded year token, which here lies inside the title. -/
theorem dotted_name_counterexample :
    normalize_name "Blade.Runner.2049.2022.[x]" = "Blade Runner (2049)" ∧
      normalize_name "Blade.Runner.2049.2022.[x]" ≠ "Blade Runner 2049 (2022)" := by
  exact ⟨by decide, by decide⟩

end MediaMerge
